import Mathlib

set_option maxRecDepth 8000

/-! Shallow embedding of the `netbox-scripts` repository: the address-pool
allocation fragments shared by `renumber.py` and `add_pni.py`, the tag
utilities of `util/tags.py`, the input resolution helper `get_ips` of
`renumber.py`, and the run methods of the `GenerateNew`, `PruneIPs`,
`CreateBundle` and `ConfigurePNI` scripts.

Machine addresses are modelled as `Nat`; an address block's available set
(the netaddr `IPSet` returned by the external store query
`get_available_ips()`) is modelled in its canonical form: the ascending
list of disjoint maximal CIDRs that `IPSet.iter_cidrs()` yields. -/

/-- Outcome channel of a script body: `cancel` is a raised `CancelScript`,
which the `cancellable` decorator of `util/cancel_script.py` catches
(rollback, job not errored); `fault` is any other exception (rollback,
job errored). -/
inductive RunErr where
  | cancel : String → RunErr
  | fault : String → RunErr
  deriving DecidableEq

/-- A CIDR inside a `w`-bit address space: first address `base` and mask
length `len` (so it spans `2 ^ (w - len)` addresses). Mirrors a netaddr
`IPNetwork` in network-normalised form. -/
structure Cidr where
  base : Nat
  len : Nat
  deriving DecidableEq

/-- Number of addresses covered by a CIDR in a `w`-bit space. -/
def cSize (w : Nat) (c : Cidr) : Nat := 2 ^ (w - c.len)

/-- Address membership in a CIDR. -/
def inC (w : Nat) (c : Cidr) (a : Nat) : Bool :=
  decide (c.base ≤ a) && decide (a < c.base + cSize w c)

/-- Address membership in an available set (a list of CIDRs). -/
def memS (w : Nat) (S : List Cidr) (a : Nat) : Bool :=
  S.any (fun c => inC w c a)

/-- Value of the Python loop variable after `for c in S: if p c: break`
(as in the `iter_cidrs()` loops of `renumber.py` and `add_pni.py`): the
first element satisfying `p` if the loop breaks, otherwise the last
element of the iteration; `none` models the variable staying unbound on
an empty iterable (a `NameError`, i.e. a fault, at the next use). -/
def iterBreakSelect (p : Cidr → Bool) : List Cidr → Option Cidr
  | [] => none
  | [c] => some c
  | c :: d :: rest => if p c then some c else iterBreakSelect p (d :: rest)

/-- Align `a` downward to a multiple of `m` (netaddr network
normalisation `ip & mask`). -/
def alignDown (a m : Nat) : Nat := a - a % m

/-- The two halves of a CIDR (used by netaddr `cidr_exclude`). -/
def halves (w : Nat) (t : Cidr) : Cidr × Cidr :=
  (⟨t.base, t.len + 1⟩, ⟨t.base + 2 ^ (w - t.len - 1), t.len + 1⟩)

/-- netaddr `cidr_exclude`: remove the strict sub-CIDR `x` from `t` by
repeated halving, emitting the untouched halves in ascending order.
`fuel` is `x.len - t.len`. -/
def excl (w : Nat) : Nat → Cidr → Cidr → List Cidr
  | 0, _, _ => []
  | f + 1, t, x =>
      if inC w (halves w t).1 x.base then excl w f (halves w t).1 x ++ [(halves w t).2]
      else (halves w t).1 :: excl w f (halves w t).2 x

/-- Remove CIDR `x` from a single member `t` of an `IPSet`: aligned CIDRs
are nested or disjoint, so `t` is dropped, split, or kept whole. -/
def cidrDiff (w : Nat) (t x : Cidr) : List Cidr :=
  if x.len ≤ t.len && inC w x t.base then []
  else if t.len < x.len && inC w t x.base then excl w (x.len - t.len) t x
  else [t]

/-- Concatenation-map helper (rebuild-the-member-list loop of
netaddr `IPSet.remove`). -/
def flatMapC : List Cidr → (Cidr → List Cidr) → List Cidr
  | [], _ => []
  | c :: r, f => f c ++ flatMapC r f

/-- netaddr `IPSet.remove(x)`: set difference, member by member. -/
def removeCidr (w : Nat) (S : List Cidr) (x : Cidr) : List Cidr :=
  flatMapC S (fun t => cidrDiff w t x)

/-- Embedding of the pair-allocation fragment of `GenerateNew.run`
(renumber.py lines 145-163):

for cidr in ips.iter_cidrs():
    if cidr.prefixlen < w: break
p = copy(cidr); p.prefixlen = w - 1; ips.remove(p)
new = [p[0], p[1]]

Returns the selected loop CIDR, the two addresses `p[0]` and `p[1]`, and
the shrunken set. `none` models the `NameError` on an empty set (the
loop variable is never bound). Note that the code runs the same carve
even when the loop falls through without breaking. -/
def allocStep (w : Nat) (S : List Cidr) : Option (Cidr × Nat × Nat × List Cidr) :=
  match iterBreakSelect (fun c => decide (c.len < w)) S with
  | none => none
  | some c =>
      let b := alignDown c.base 2
      some (c, b, b + 1, removeCidr w S ⟨b, w - 1⟩)

/-- A CIDR is well formed in a `w`-bit space: mask length in range and
base aligned to the mask. -/
def alignedC (w : Nat) (c : Cidr) : Bool :=
  decide (c.len ≤ w) && decide (c.base % cSize w c = 0)

/-- Members listed in ascending address order without overlap (each ends
no later than the next begins), as `iter_cidrs()` guarantees. -/
def chainLe (w : Nat) : List Cidr → Bool
  | [] => true
  | [_] => true
  | c :: d :: r => decide (c.base + cSize w c ≤ d.base) && chainLe w (d :: r)

/-- No two mergeable sibling host routes: netaddr keeps `IPSet`s
compacted, so `b/w` and `(b+1)/w` never coexist as separate members. -/
def noSibSingles (w : Nat) (S : List Cidr) : Bool :=
  S.all (fun c =>
    !(decide (c.len = w) && decide (c.base % 2 = 0) &&
      S.any (fun d => decide (d = Cidr.mk (c.base + 1) w))))

/-- Canonical-form invariant of a netaddr `IPSet` CIDR list. -/
def Canon (w : Nat) (S : List Cidr) : Bool :=
  decide (2 ≤ w) && S.all (alignedC w) && chainLe w S && noSibSingles w S

/-- `b` is the even first address of a fully available point-to-point
subnet (`/(w-1)`) of the set. -/
def pairAvail (w : Nat) (S : List Cidr) (b : Nat) : Bool :=
  decide (b % 2 = 0) && memS w S b && memS w S (b + 1)

/-- Ascending list of the first addresses of all available
point-to-point subnets below `N`. -/
def availBases (w N : Nat) (S : List Cidr) : List Nat :=
  (List.range N).filter (pairAvail w S)

/-- One past the last address mentioned by the set. -/
def setEnd (w : Nat) (S : List Cidr) : Nat :=
  S.foldr (fun c m => max (c.base + cSize w c) m) 0

/-- Repeated pair allocation against one block inside one run: collects
the primary address of each allocation. Stops early on the fault case. -/
def allocRun (w : Nat) : Nat → List Cidr → List Nat × List Cidr
  | 0, S => ([], S)
  | n + 1, S =>
      match allocStep w S with
      | none => ([], S)
      | some (_, b, _, S') =>
          let r := allocRun w n S'
          (b :: r.1, r.2)

/-- Every one of the `n` allocations actually found a fitting range
(the loop broke each time). -/
def goodRun (w : Nat) : Nat → List Cidr → Bool
  | 0, _ => true
  | n + 1, S =>
      match allocStep w S with
      | none => false
      | some (c, _, _, S') => decide (c.len < w) && goodRun w n S'

/-! Basic facts about CIDR membership and alignment. -/

theorem inC_eq_true_iff {w : Nat} {c : Cidr} {a : Nat} :
    inC w c a = true ↔ c.base ≤ a ∧ a < c.base + cSize w c := by
  simp [inC]

theorem memS_eq_true_iff {w : Nat} {S : List Cidr} {a : Nat} :
    memS w S a = true ↔ ∃ c ∈ S, inC w c a = true := by
  simp [memS]

theorem alignedC_iff {w : Nat} {c : Cidr} :
    alignedC w c = true ↔ c.len ≤ w ∧ c.base % cSize w c = 0 := by
  simp [alignedC]

theorem cSize_pos {w : Nat} {c : Cidr} : 0 < cSize w c :=
  Nat.pow_pos (by norm_num)

theorem inC_base {w : Nat} {c : Cidr} : inC w c c.base = true := by
  rw [inC_eq_true_iff]
  exact ⟨Nat.le_refl _, Nat.lt_add_of_pos_right cSize_pos⟩

theorem two_le_cSize {w : Nat} {c : Cidr} (h : c.len < w) : 2 ≤ cSize w c := by
  have h1 : 1 ≤ w - c.len := by omega
  calc 2 = 2 ^ 1 := by norm_num
  _ ≤ 2 ^ (w - c.len) := Nat.pow_le_pow_right (by norm_num) h1

theorem inC_base_succ {w : Nat} {c : Cidr} (h : c.len < w) :
    inC w c (c.base + 1) = true := by
  rw [inC_eq_true_iff]
  have := two_le_cSize (w := w) h
  omega

theorem dvd_lt_add_le {d x y : Nat} (hx : d ∣ x) (hy : d ∣ y) (h : x < y) :
    x + d ≤ y := by
  obtain ⟨i, rfl⟩ := hx
  obtain ⟨j, rfl⟩ := hy
  rcases Nat.eq_zero_or_pos d with h0 | h0
  · omega
  · have hij : i < j := by
      by_contra hc
      exact absurd (Nat.mul_le_mul_left d (by omega : j ≤ i)) (by omega)
    calc d * i + d = d * (i + 1) := by ring
    _ ≤ d * j := Nat.mul_le_mul_left d (by omega)

theorem cSize_dvd_base {w : Nat} {c : Cidr} (hc : alignedC w c = true) :
    cSize w c ∣ c.base :=
  Nat.dvd_of_mod_eq_zero (alignedC_iff.mp hc).2

theorem cSize_dvd_cSize {w : Nat} {c d : Cidr} (h : c.len ≤ d.len) :
    cSize w d ∣ cSize w c :=
  Nat.pow_dvd_pow 2 (by omega)

/-- Two aligned CIDRs that share an address are nested: the one with the
longer mask lies inside the one with the shorter mask. -/
theorem nest_sub {w : Nat} {c d : Cidr} {a : Nat}
    (hc : alignedC w c = true) (hd : alignedC w d = true)
    (hlen : c.len ≤ d.len)
    (hac : inC w c a = true) (had : inC w d a = true) :
    c.base ≤ d.base ∧ d.base + cSize w d ≤ c.base + cSize w c := by
  rw [inC_eq_true_iff] at hac had
  have hdvd : cSize w d ∣ cSize w c := cSize_dvd_cSize hlen
  have hdb : cSize w d ∣ d.base := cSize_dvd_base hd
  have hcb : cSize w d ∣ c.base := hdvd.trans (cSize_dvd_base hc)
  constructor
  · by_contra hlt
    have := dvd_lt_add_le hdb hcb (by omega)
    omega
  · by_contra hlt
    have hce : cSize w d ∣ c.base + cSize w c := Nat.dvd_add hcb hdvd
    have hde : cSize w d ∣ d.base + cSize w d := Nat.dvd_add hdb dvd_rfl
    have := dvd_lt_add_le hce hde (by omega)
    omega

theorem nest_mem {w : Nat} {c d : Cidr} {a : Nat}
    (hc : alignedC w c = true) (hd : alignedC w d = true)
    (hlen : c.len ≤ d.len)
    (hac : inC w c a = true) (had : inC w d a = true) :
    ∀ y, inC w d y = true → inC w c y = true := by
  intro y hy
  have hs := nest_sub hc hd hlen hac had
  rw [inC_eq_true_iff] at hy ⊢
  omega

/-- Ordering relation between CIDRs: the first ends no later than the
second begins. -/
def cOrd (w : Nat) (c d : Cidr) : Prop := c.base + cSize w c ≤ d.base

theorem dvd_mod_zero {a b : Nat} (h : a ∣ b) : b % a = 0 := by
  obtain ⟨k, rfl⟩ := h
  exact Nat.mul_mod_right a k

theorem memS_append {w : Nat} {A B : List Cidr} {a : Nat} :
    memS w (A ++ B) a = (memS w A a || memS w B a) := by
  simp [memS]

theorem memS_singleton {w : Nat} {c : Cidr} {a : Nat} :
    memS w [c] a = inC w c a := by
  simp [memS]

theorem halves_size {w : Nat} {t : Cidr} (h : t.len < w) :
    cSize w t = 2 ^ (w - t.len - 1) * 2 := by
  unfold cSize
  rw [← pow_succ]
  congr 1
  omega

theorem cSize_halves_fst {w : Nat} {t : Cidr} :
    cSize w (halves w t).1 = 2 ^ (w - t.len - 1) := by
  rfl

theorem cSize_halves_snd {w : Nat} {t : Cidr} :
    cSize w (halves w t).2 = 2 ^ (w - t.len - 1) := by
  rfl

theorem aligned_halves_fst {w : Nat} {t : Cidr}
    (ht : alignedC w t = true) (hlt : t.len < w) :
    alignedC w (halves w t).1 = true := by
  rw [alignedC_iff] at ht ⊢
  refine ⟨by simp only [halves]; omega, ?_⟩
  rw [cSize_halves_fst]
  have h1 : (2 : Nat) ^ (w - t.len - 1) ∣ cSize w t :=
    Nat.pow_dvd_pow 2 (by omega)
  have h2 : (2 : Nat) ^ (w - t.len - 1) ∣ t.base :=
    h1.trans (Nat.dvd_of_mod_eq_zero ht.2)
  simpa [halves] using dvd_mod_zero h2

theorem aligned_halves_snd {w : Nat} {t : Cidr}
    (ht : alignedC w t = true) (hlt : t.len < w) :
    alignedC w (halves w t).2 = true := by
  rw [alignedC_iff] at ht ⊢
  refine ⟨by simp only [halves]; omega, ?_⟩
  rw [cSize_halves_snd]
  have h1 : (2 : Nat) ^ (w - t.len - 1) ∣ cSize w t :=
    Nat.pow_dvd_pow 2 (by omega)
  have h2 : (2 : Nat) ^ (w - t.len - 1) ∣ t.base :=
    h1.trans (Nat.dvd_of_mod_eq_zero ht.2)
  have h3 : (2 : Nat) ^ (w - t.len - 1) ∣ t.base + 2 ^ (w - t.len - 1) :=
    Nat.dvd_add h2 dvd_rfl
  simpa [halves] using dvd_mod_zero h3

theorem inC_halves {w : Nat} {t : Cidr} (hlt : t.len < w) (a : Nat) :
    inC w t a = (inC w (halves w t).1 a || inC w (halves w t).2 a) := by
  have hsz := halves_size (w := w) hlt
  have h0 := cSize_halves_fst (w := w) (t := t)
  have h1 := cSize_halves_snd (w := w) (t := t)
  rw [Bool.eq_iff_iff]
  simp only [Bool.or_eq_true, inC_eq_true_iff, h0, h1]
  simp only [halves]
  omega

theorem halves_disj {w : Nat} {t : Cidr} {a : Nat} (hlt : t.len < w)
    (h1 : inC w (halves w t).1 a = true) (h2 : inC w (halves w t).2 a = true) :
    False := by
  rw [inC_eq_true_iff] at h1 h2
  rw [cSize_halves_fst] at h1
  rw [cSize_halves_snd] at h2
  simp only [halves] at h1 h2
  omega

/-- Full specification of netaddr `cidr_exclude`: removing an aligned
strict sub-CIDR `x` from `t` yields exactly the addresses of `t` outside
`x`, as aligned pieces strictly inside `t`, listed in ascending order. -/
theorem excl_spec {w : Nat} (f : Nat) :
    ∀ (t x : Cidr), alignedC w t = true → alignedC w x = true →
    t.len + f = x.len → x.len ≤ w → inC w t x.base = true →
    (∀ a, memS w (excl w f t x) a = (inC w t a && !inC w x a))
    ∧ (∀ e ∈ excl w f t x,
        alignedC w e = true ∧ t.len < e.len ∧ e.len ≤ x.len ∧
        t.base ≤ e.base ∧ e.base + cSize w e ≤ t.base + cSize w t)
    ∧ List.Pairwise (cOrd w) (excl w f t x) := by
  induction f with
  | zero =>
    intro t x ht hx hf hxw hbase
    have hsz : cSize w t = cSize w x := by
      have hlen : t.len = x.len := by omega
      unfold cSize
      rw [hlen]
    have h1 := nest_sub ht hx (by omega) hbase inC_base
    have h2 := nest_sub hx ht (by omega) inC_base hbase
    refine ⟨?_, ?_, ?_⟩
    · intro a
      have hxt : ∀ y, inC w x y = inC w t y := by
        intro y
        rw [Bool.eq_iff_iff, inC_eq_true_iff, inC_eq_true_iff]
        omega
      simp only [excl, memS, List.any_nil, hxt]
      cases inC w t a <;> simp
    · intro e he
      simp [excl] at he
    · simp [excl]
  | succ f ih =>
    intro t x ht hx hf hxw hbase
    have hlt : t.len < w := by omega
    have hpos : (0 : Nat) < 2 ^ (w - t.len - 1) := Nat.pow_pos (by norm_num)
    have hs0 := cSize_halves_fst (w := w) (t := t)
    have hs1 := cSize_halves_snd (w := w) (t := t)
    have hsz := halves_size (w := w) hlt
    have ha0 := aligned_halves_fst ht hlt
    have ha1 := aligned_halves_snd ht hlt
    have hsplit := inC_halves (w := w) (t := t) hlt
    have hl0 : (halves w t).1.len = t.len + 1 := rfl
    have hl1 : (halves w t).2.len = t.len + 1 := rfl
    have hb0 : (halves w t).1.base = t.base := rfl
    have hb1 : (halves w t).2.base = t.base + 2 ^ (w - t.len - 1) := rfl
    by_cases hc : inC w (halves w t).1 x.base = true
    · obtain ⟨ihm, ihp, ihw⟩ :=
        ih (halves w t).1 x ha0 hx (by rw [hl0]; omega) hxw hc
      have hxsub : ∀ y, inC w x y = true → inC w (halves w t).1 y = true :=
        nest_mem ha0 hx (by rw [hl0]; omega) hc inC_base
      refine ⟨?_, ?_, ?_⟩
      · intro a
        simp only [excl, hc, if_true, memS_append, memS_singleton, ihm, hsplit a]
        cases hxa : inC w x a
        · simp
        · have h0 : inC w (halves w t).1 a = true := hxsub a hxa
          have h1 : inC w (halves w t).2 a = false := by
            cases h1 : inC w (halves w t).2 a
            · rfl
            · exact absurd (halves_disj hlt h0 h1) (by simp)
          simp [h0, h1]
      · intro e he
        simp only [excl, hc, if_true, List.mem_append, List.mem_singleton] at he
        rcases he with he | rfl
        · obtain ⟨hea, hel, helx, heb1, heb2⟩ := ihp e he
          rw [hl0] at hel
          rw [hb0] at heb1
          rw [hb0, hs0] at heb2
          exact ⟨hea, by omega, helx, heb1, by omega⟩
        · refine ⟨ha1, by rw [hl1]; omega, by rw [hl1]; omega, ?_, ?_⟩
          · rw [hb1]; omega
          · rw [hb1, hs1]; omega
      · simp only [excl, hc, if_true]
        rw [List.pairwise_append]
        refine ⟨ihw, List.pairwise_singleton _ _, ?_⟩
        intro e he e' he'
        rw [List.mem_singleton] at he'
        subst he'
        obtain ⟨_, _, _, _, heb2⟩ := ihp e he
        rw [hb0, hs0] at heb2
        show e.base + cSize w e ≤ (halves w t).2.base
        rw [hb1]
        omega
    · have hc' : inC w (halves w t).1 x.base = false := by
        cases h : inC w (halves w t).1 x.base
        · rfl
        · exact absurd h hc
      have hc2 : inC w (halves w t).2 x.base = true := by
        have := hsplit x.base
        rw [hbase, hc'] at this
        simpa using this.symm
      obtain ⟨ihm, ihp, ihw⟩ :=
        ih (halves w t).2 x ha1 hx (by rw [hl1]; omega) hxw hc2
      have hxsub : ∀ y, inC w x y = true → inC w (halves w t).2 y = true :=
        nest_mem ha1 hx (by rw [hl1]; omega) hc2 inC_base
      refine ⟨?_, ?_, ?_⟩
      · intro a
        simp only [excl, hc', Bool.false_eq_true, if_false, memS, List.any_cons]
        show (inC w (halves w t).1 a || memS w (excl w f (halves w t).2 x) a) = _
        rw [ihm a, hsplit a]
        cases hxa : inC w x a
        · simp
        · have h1 : inC w (halves w t).2 a = true := hxsub a hxa
          have h0 : inC w (halves w t).1 a = false := by
            cases h0 : inC w (halves w t).1 a
            · rfl
            · exact absurd (halves_disj hlt h0 h1) (by simp)
          simp [h0, h1]
      · intro e he
        simp only [excl, hc', Bool.false_eq_true, if_false, List.mem_cons] at he
        rcases he with rfl | he
        · refine ⟨ha0, by rw [hl0]; omega, by rw [hl0]; omega, ?_, ?_⟩
          · rw [hb0]
          · rw [hb0, hs0]; omega
        · obtain ⟨hea, hel, helx, heb1, heb2⟩ := ihp e he
          rw [hl1] at hel
          rw [hb1] at heb1
          rw [hb1, hs1] at heb2
          exact ⟨hea, by omega, helx, by omega, by omega⟩
      · simp only [excl, hc', Bool.false_eq_true, if_false]
        rw [List.pairwise_cons]
        refine ⟨?_, ihw⟩
        intro e he
        obtain ⟨_, _, _, heb1, _⟩ := ihp e he
        rw [hb1] at heb1
        show (halves w t).1.base + cSize w (halves w t).1 ≤ e.base
        rw [hb0, hs0]
        omega

/-- Membership after removing `x` from a single aligned member `t`. -/
theorem cidrDiff_mem {w : Nat} {t x : Cidr}
    (ht : alignedC w t = true) (hx : alignedC w x = true) :
    ∀ a, memS w (cidrDiff w t x) a = (inC w t a && !inC w x a) := by
  intro a
  unfold cidrDiff
  by_cases h1 : (x.len ≤ t.len && inC w x t.base) = true
  · rw [if_pos h1]
    rw [Bool.and_eq_true, decide_eq_true_iff] at h1
    have hsub : ∀ y, inC w t y = true → inC w x y = true :=
      nest_mem hx ht h1.1 h1.2 inC_base
    simp only [memS, List.any_nil]
    cases hta : inC w t a
    · simp
    · simp [hsub a hta]
  · rw [if_neg h1]
    by_cases h2 : (t.len < x.len && inC w t x.base) = true
    · rw [if_pos h2]
      rw [Bool.and_eq_true, decide_eq_true_iff] at h2
      exact (excl_spec (x.len - t.len) t x ht hx (by omega)
        (alignedC_iff.mp hx).1 h2.2).1 a
    · rw [if_neg h2]
      rw [memS_singleton]
      cases hta : inC w t a
      · simp
      · cases hxa : inC w x a
        · simp
        · exfalso
          rcases Nat.le_total x.len t.len with hl | hl
          · have := nest_sub hx ht hl hxa hta
            have hbt : inC w x t.base = true := by
              rw [inC_eq_true_iff] at hta ⊢
              omega
            exact h1 (by simp [hl, hbt])
          · rcases Nat.lt_or_ge t.len x.len with hl2 | hl2
            · have := nest_sub ht hx (by omega) hta hxa
              have hbt : inC w t x.base = true := by
                rw [inC_eq_true_iff] at hxa ⊢
                omega
              exact h2 (by simp [hl2, hbt])
            · have hle : x.len = t.len := by omega
              have := nest_sub hx ht (by omega) hxa hta
              have hbt : inC w x t.base = true := by
                rw [inC_eq_true_iff] at hta ⊢
                omega
              exact h1 (by simp [hle.le, hbt])

/-- Pieces of `cidrDiff`: each is `t` itself or an aligned strict
sub-piece of `t` no finer than `x`. -/
theorem cidrDiff_pieces {w : Nat} {t x : Cidr}
    (ht : alignedC w t = true) (hx : alignedC w x = true) :
    ∀ e ∈ cidrDiff w t x, e = t ∨
      (alignedC w e = true ∧ t.len < e.len ∧ e.len ≤ x.len ∧
        t.base ≤ e.base ∧ e.base + cSize w e ≤ t.base + cSize w t) := by
  intro e he
  unfold cidrDiff at he
  by_cases h1 : (x.len ≤ t.len && inC w x t.base) = true
  · rw [if_pos h1] at he
    simp at he
  · rw [if_neg h1] at he
    by_cases h2 : (t.len < x.len && inC w t x.base) = true
    · rw [if_pos h2] at he
      rw [Bool.and_eq_true, decide_eq_true_iff] at h2
      exact Or.inr ((excl_spec (x.len - t.len) t x ht hx (by omega)
        (alignedC_iff.mp hx).1 h2.2).2.1 e he)
    · rw [if_neg h2] at he
      rw [List.mem_singleton] at he
      exact Or.inl he

/-- The pieces of `cidrDiff` are listed in ascending order. -/
theorem cidrDiff_pairwise {w : Nat} {t x : Cidr}
    (ht : alignedC w t = true) (hx : alignedC w x = true) :
    List.Pairwise (cOrd w) (cidrDiff w t x) := by
  unfold cidrDiff
  by_cases h1 : (x.len ≤ t.len && inC w x t.base) = true
  · rw [if_pos h1]; exact List.Pairwise.nil
  · rw [if_neg h1]
    by_cases h2 : (t.len < x.len && inC w t x.base) = true
    · rw [if_pos h2]
      rw [Bool.and_eq_true, decide_eq_true_iff] at h2
      exact (excl_spec (x.len - t.len) t x ht hx (by omega)
        (alignedC_iff.mp hx).1 h2.2).2.2
    · rw [if_neg h2]
      exact List.pairwise_singleton _ _

theorem mem_flatMapC {e : Cidr} {S : List Cidr} {g : Cidr → List Cidr} :
    e ∈ flatMapC S g ↔ ∃ t ∈ S, e ∈ g t := by
  induction S with
  | nil => simp [flatMapC]
  | cons c r ih => simp [flatMapC, ih]

theorem memS_flatMapC {w : Nat} {S : List Cidr} {g : Cidr → List Cidr} {a : Nat} :
    memS w (flatMapC S g) a = S.any (fun t => memS w (g t) a) := by
  induction S with
  | nil => simp [flatMapC, memS]
  | cons c r ih =>
    show memS w (g c ++ flatMapC r g) a = _
    rw [memS_append, ih, List.any_cons]

/-- Membership after `IPSet.remove`: exactly the old addresses outside
the removed CIDR. -/
theorem memS_removeCidr {w : Nat} {S : List Cidr} {x : Cidr}
    (hS : ∀ t ∈ S, alignedC w t = true) (hx : alignedC w x = true) :
    ∀ a, memS w (removeCidr w S x) a = (memS w S a && !inC w x a) := by
  intro a
  unfold removeCidr
  rw [memS_flatMapC]
  induction S with
  | nil => simp [memS]
  | cons c r ih =>
    simp only [List.any_cons]
    rw [cidrDiff_mem (hS c (by simp)) hx a,
      ih (fun t htr => hS t (by simp [htr]))]
    show _ = (memS w (c :: r) a && !inC w x a)
    simp only [memS, List.any_cons]
    cases inC w c a <;> cases inC w x a <;> simp [memS]

theorem elem_removeCidr {w : Nat} {S : List Cidr} {x e : Cidr}
    (he : e ∈ removeCidr w S x) : ∃ t ∈ S, e ∈ cidrDiff w t x := by
  exact mem_flatMapC.mp he

/-! Order and canonical-form preservation. -/

theorem chainLe_iff_pairwise {w : Nat} :
    ∀ {S : List Cidr}, chainLe w S = true ↔ List.Pairwise (cOrd w) S := by
  intro S
  induction S with
  | nil => simp [chainLe]
  | cons c r ih =>
    cases r with
    | nil => simp [chainLe, cOrd]
    | cons d r' =>
      rw [chainLe, Bool.and_eq_true, decide_eq_true_iff, ih]
      constructor
      · rintro ⟨hcd, hp⟩
        rw [List.pairwise_cons]
        refine ⟨?_, hp⟩
        intro e he
        rw [List.mem_cons] at he
        rcases he with rfl | he
        · exact hcd
        · have hde : cOrd w d e := (List.pairwise_cons.mp hp).1 e he
          have := cSize_pos (w := w) (c := d)
          unfold cOrd at hde ⊢
          omega
      · intro hp
        rw [List.pairwise_cons] at hp
        exact ⟨hp.1 d (by simp), hp.2⟩

theorem pairwise_flatMapC {w : Nat} {S : List Cidr} {g : Cidr → List Cidr}
    (hint : ∀ t ∈ S, List.Pairwise (cOrd w) (g t))
    (hrange : ∀ t ∈ S, ∀ e ∈ g t,
      t.base ≤ e.base ∧ e.base + cSize w e ≤ t.base + cSize w t)
    (hS : List.Pairwise (cOrd w) S) :
    List.Pairwise (cOrd w) (flatMapC S g) := by
  induction S with
  | nil => exact List.Pairwise.nil
  | cons c r ih =>
    show List.Pairwise (cOrd w) (g c ++ flatMapC r g)
    rw [List.pairwise_append]
    rw [List.pairwise_cons] at hS
    refine ⟨hint c (by simp), ih (fun t ht => hint t (by simp [ht]))
      (fun t ht => hrange t (by simp [ht])) hS.2, ?_⟩
    intro e he e' he'
    obtain ⟨t', ht', het'⟩ := mem_flatMapC.mp he'
    have h1 := hrange c (by simp) e he
    have h2 := hrange t' (by simp [ht']) e' het'
    have h3 : cOrd w c t' := hS.1 t' ht'
    unfold cOrd at h3 ⊢
    omega

theorem Canon_two_le {w : Nat} {S : List Cidr} (h : Canon w S = true) : 2 ≤ w := by
  unfold Canon at h
  simp only [Bool.and_eq_true, decide_eq_true_iff] at h
  exact h.1.1.1

theorem Canon_aligned {w : Nat} {S : List Cidr} (h : Canon w S = true) :
    ∀ t ∈ S, alignedC w t = true := by
  unfold Canon at h
  simp only [Bool.and_eq_true, List.all_eq_true] at h
  exact h.1.1.2

theorem Canon_chain {w : Nat} {S : List Cidr} (h : Canon w S = true) :
    List.Pairwise (cOrd w) S := by
  unfold Canon at h
  simp only [Bool.and_eq_true] at h
  exact chainLe_iff_pairwise.mp h.1.2

theorem Canon_noSib {w : Nat} {S : List Cidr} (h : Canon w S = true) :
    ∀ c ∈ S, c.len = w → c.base % 2 = 0 → Cidr.mk (c.base + 1) w ∉ S := by
  unfold Canon at h
  simp only [Bool.and_eq_true] at h
  have h2 := h.2
  unfold noSibSingles at h2
  rw [List.all_eq_true] at h2
  intro c hc hlen heven hmem
  have h3 := h2 c hc
  rw [Bool.not_eq_true'] at h3
  have h4 : (decide (c.len = w) && decide (c.base % 2 = 0) &&
      (S.any (fun d => decide (d = Cidr.mk (c.base + 1) w)))) = true := by
    rw [Bool.and_eq_true, Bool.and_eq_true]
    refine ⟨⟨by simp [hlen], by simp [heven]⟩, ?_⟩
    rw [List.any_eq_true]
    exact ⟨_, hmem, by simp⟩
  simp [h3] at h4

theorem pairwise_disjoint {w : Nat} {S : List Cidr}
    (hp : List.Pairwise (cOrd w) S) {c d : Cidr} {a : Nat}
    (hc : c ∈ S) (hd : d ∈ S) (hne : c ≠ d)
    (hca : inC w c a = true) (hda : inC w d a = true) : False := by
  rw [inC_eq_true_iff] at hca hda
  induction S with
  | nil => simp at hc
  | cons e r ih =>
    rw [List.pairwise_cons] at hp
    rw [List.mem_cons] at hc hd
    rcases hc with rfl | hc
    · rcases hd with rfl | hd
      · exact hne rfl
      · have := hp.1 d hd
        unfold cOrd at this
        omega
    · rcases hd with rfl | hd
      · have := hp.1 c hc
        unfold cOrd at this
        omega
      · exact ih hp.2 hc hd

/-- A host-route (`/w`) member surviving `IPSet.remove` of a `/(w-1)`
was already a member: exclusion splits never produce host routes. -/
theorem removeCidr_single_mem {w : Nat} {S : List Cidr} {x e : Cidr}
    (hS : ∀ t ∈ S, alignedC w t = true) (hx : alignedC w x = true)
    (hxl : x.len = w - 1) (h2 : 2 ≤ w)
    (he : e ∈ removeCidr w S x) (hlen : e.len = w) : e ∈ S := by
  obtain ⟨t, htS, het⟩ := elem_removeCidr he
  rcases cidrDiff_pieces (hS t htS) hx e het with rfl | ⟨_, _, hle, _, _⟩
  · exact htS
  · omega

theorem Canon_removeCidr {w : Nat} {S : List Cidr} {x : Cidr}
    (hC : Canon w S = true) (hx : alignedC w x = true)
    (hxl : x.len = w - 1) :
    Canon w (removeCidr w S x) = true := by
  have h2 := Canon_two_le hC
  have hal := Canon_aligned hC
  have hch := Canon_chain hC
  unfold Canon
  rw [Bool.and_eq_true, Bool.and_eq_true, Bool.and_eq_true]
  refine ⟨⟨⟨by simp [h2], ?_⟩, ?_⟩, ?_⟩
  · rw [List.all_eq_true]
    intro e he
    obtain ⟨t, htS, het⟩ := elem_removeCidr he
    rcases cidrDiff_pieces (hal t htS) hx e het with rfl | ⟨hea, _, _, _, _⟩
    · exact hal e htS
    · exact hea
  · rw [chainLe_iff_pairwise]
    refine pairwise_flatMapC (fun t ht => cidrDiff_pairwise (hal t ht) hx)
      ?_ hch
    intro t ht e he
    rcases cidrDiff_pieces (hal t ht) hx e he with rfl | ⟨_, _, _, hb1, hb2⟩
    · exact ⟨Nat.le_refl _, Nat.le_refl _⟩
    · exact ⟨hb1, hb2⟩
  · unfold noSibSingles
    rw [List.all_eq_true]
    intro c hc
    rw [Bool.not_eq_true']
    by_cases hl : c.len = w
    · by_cases hev : c.base % 2 = 0
      · have hcS : c ∈ S := removeCidr_single_mem hal hx hxl h2 hc hl
        have hno := Canon_noSib hC c hcS hl hev
        rw [Bool.and_eq_false_iff]
        right
        rw [List.any_eq_false]
        intro d hd
        simp only [Bool.not_eq_true, decide_eq_false_iff_not]
        intro hde
        subst hde
        exact hno (removeCidr_single_mem hal hx hxl h2 hd rfl)
      · rw [Bool.and_eq_false_iff]
        left
        rw [Bool.and_eq_false_iff]
        right
        simp [hev]
    · rw [Bool.and_eq_false_iff]
      left
      rw [Bool.and_eq_false_iff]
      left
      simp [hl]

/-! Bounds of a set. -/

theorem le_setEnd {w : Nat} {S : List Cidr} {t : Cidr} (ht : t ∈ S) :
    t.base + cSize w t ≤ setEnd w S := by
  induction S with
  | nil => simp at ht
  | cons c r ih =>
    show _ ≤ max (c.base + cSize w c) (setEnd w r)
    rcases List.mem_cons.mp ht with rfl | ht
    · exact Nat.le_max_left _ _
    · exact le_trans (ih ht) (Nat.le_max_right _ _)

theorem memS_lt_setEnd {w : Nat} {S : List Cidr} {a : Nat}
    (h : memS w S a = true) : a < setEnd w S := by
  obtain ⟨c, hc, hac⟩ := memS_eq_true_iff.mp h
  rw [inC_eq_true_iff] at hac
  have := le_setEnd (w := w) hc
  omega

theorem setEnd_le_of_forall {w : Nat} {B : Nat} :
    ∀ {S : List Cidr}, (∀ e ∈ S, e.base + cSize w e ≤ B) → setEnd w S ≤ B := by
  intro S
  induction S with
  | nil => intro _; exact Nat.zero_le B
  | cons c r ih =>
    intro h
    show max (c.base + cSize w c) (setEnd w r) ≤ B
    exact max_le (h c (by simp)) (ih fun e he => h e (by simp [he]))

theorem setEnd_removeCidr_le {w : Nat} {S : List Cidr} {x : Cidr}
    (hS : ∀ t ∈ S, alignedC w t = true) (hx : alignedC w x = true) :
    setEnd w (removeCidr w S x) ≤ setEnd w S := by
  refine setEnd_le_of_forall ?_
  intro e he
  obtain ⟨t, htS, het⟩ := elem_removeCidr he
  have hend := le_setEnd (w := w) htS
  rcases cidrDiff_pieces (hS t htS) hx e het with rfl | ⟨_, _, _, _, hb2⟩
  · exact hend
  · omega

/-! Behaviour of the break-style selection loop. -/

theorem iterBreak_mem {p : Cidr → Bool} :
    ∀ {S : List Cidr} {c : Cidr}, iterBreakSelect p S = some c → c ∈ S := by
  intro S
  induction S with
  | nil => intro c h; simp [iterBreakSelect] at h
  | cons a r ih =>
    intro c h
    cases r with
    | nil =>
      simp only [iterBreakSelect, Option.some.injEq] at h
      simp [h]
    | cons b r' =>
      rw [iterBreakSelect] at h
      by_cases hp : p a = true
      · rw [if_pos hp, Option.some.injEq] at h
        simp [← h]
      · rw [if_neg hp] at h
        exact List.mem_cons_of_mem a (ih h)

theorem iterBreak_split {p : Cidr → Bool} :
    ∀ {S : List Cidr} {c : Cidr}, iterBreakSelect p S = some c → p c = true →
    ∃ S1 S2, S = S1 ++ c :: S2 ∧ ∀ e ∈ S1, p e = false := by
  intro S
  induction S with
  | nil => intro c h _; simp [iterBreakSelect] at h
  | cons a r ih =>
    intro c h hc
    cases r with
    | nil =>
      simp only [iterBreakSelect, Option.some.injEq] at h
      subst h
      exact ⟨[], [], rfl, by simp⟩
    | cons b r' =>
      rw [iterBreakSelect] at h
      by_cases hp : p a = true
      · rw [if_pos hp, Option.some.injEq] at h
        subst h
        exact ⟨[], b :: r', rfl, by simp⟩
      · rw [if_neg hp] at h
        obtain ⟨S1, S2, heq, hall⟩ := ih h hc
        refine ⟨a :: S1, S2, by rw [heq]; rfl, ?_⟩
        intro e he
        rcases List.mem_cons.mp he with rfl | he
        · cases hv : p e
          · rfl
          · exact absurd hv hp
        · exact hall e he

theorem iterBreak_exists {p : Cidr → Bool} :
    ∀ {S : List Cidr}, (∃ d ∈ S, p d = true) →
    ∃ c, iterBreakSelect p S = some c ∧ p c = true := by
  intro S
  induction S with
  | nil => intro h; simp at h
  | cons a r ih =>
    intro h
    cases r with
    | nil =>
      obtain ⟨d, hd, hpd⟩ := h
      rw [List.mem_singleton] at hd
      subst hd
      exact ⟨d, rfl, hpd⟩
    | cons b r' =>
      by_cases hp : p a = true
      · exact ⟨a, by rw [iterBreakSelect, if_pos hp], hp⟩
      · obtain ⟨d, hd, hpd⟩ := h
        rcases List.mem_cons.mp hd with rfl | hd
        · exact absurd hpd hp
        · obtain ⟨c, hsel, hpc⟩ := ih ⟨d, hd, hpd⟩
          exact ⟨c, by rw [iterBreakSelect, if_neg hp]; exact hsel, hpc⟩

theorem two_dvd_base {w : Nat} {c : Cidr} (hc : alignedC w c = true)
    (hlt : c.len < w) : c.base % 2 = 0 := by
  have h1 : (2 : Nat) ∣ cSize w c := by
    have : (2 : Nat) ^ 1 ∣ 2 ^ (w - c.len) := Nat.pow_dvd_pow 2 (by omega)
    simpa using this
  exact dvd_mod_zero (h1.trans (cSize_dvd_base hc))

theorem alignDown_two {a : Nat} (h : a % 2 = 0) : alignDown a 2 = a := by
  unfold alignDown
  omega

theorem cSize_pair {w : Nat} {b : Nat} (h2 : 2 ≤ w) :
    cSize w ⟨b, w - 1⟩ = 2 := by
  show (2 : Nat) ^ (w - (w - 1)) = 2
  rw [(by omega : w - (w - 1) = 1)]
  norm_num

theorem aligned_pair {w : Nat} {b : Nat} (h2 : 2 ≤ w) (heven : b % 2 = 0) :
    alignedC w (⟨b, w - 1⟩ : Cidr) = true := by
  rw [alignedC_iff]
  refine ⟨by simp, ?_⟩
  rw [cSize_pair h2]
  exact heven

/-- First-fit selection returns the lowest available point-to-point
subnet of a canonical set. -/
theorem alloc_lowest {w : Nat} {S : List Cidr} {c : Cidr}
    (hC : Canon w S = true)
    (hsel : iterBreakSelect (fun c => decide (c.len < w)) S = some c)
    (hfit : c.len < w) :
    pairAvail w S c.base = true ∧ ∀ b, b < c.base → pairAvail w S b = false := by
  have h2 := Canon_two_le hC
  have hal := Canon_aligned hC
  have hch := Canon_chain hC
  have hcS : c ∈ S := iterBreak_mem hsel
  have hca : alignedC w c = true := hal c hcS
  have heven : c.base % 2 = 0 := two_dvd_base hca hfit
  constructor
  · unfold pairAvail
    rw [memS_eq_true_iff.mpr ⟨c, hcS, inC_base⟩,
      memS_eq_true_iff.mpr ⟨c, hcS, inC_base_succ hfit⟩]
    simp [heven]
  · intro b hb
    cases hv : pairAvail w S b
    · rfl
    · exfalso
      unfold pairAvail at hv
      rw [Bool.and_eq_true, Bool.and_eq_true] at hv
      obtain ⟨⟨hbe, hm0⟩, hm1⟩ := hv
      rw [decide_eq_true_iff] at hbe
      obtain ⟨d1, hd1, hbd1⟩ := memS_eq_true_iff.mp hm0
      obtain ⟨d2, hd2, hbd2⟩ := memS_eq_true_iff.mp hm1
      -- some single member contains both b and b + 1
      have hq : ∃ d ∈ S, inC w d b = true ∧ inC w d (b + 1) = true ∧ d.len < w := by
        have hqa : alignedC w (⟨b, w - 1⟩ : Cidr) = true := aligned_pair h2 hbe
        have hqs : cSize w (⟨b, w - 1⟩ : Cidr) = 2 := cSize_pair h2
        have hqb : inC w ⟨b, w - 1⟩ b = true := by
          rw [inC_eq_true_iff, hqs]
          show b ≤ b ∧ b < b + 2
          omega
        have hqb1 : inC w ⟨b, w - 1⟩ (b + 1) = true := by
          rw [inC_eq_true_iff, hqs]
          show b ≤ b + 1 ∧ b + 1 < b + 2
          omega
        by_cases h1w : d1.len < w
        · have := nest_mem (hal d1 hd1) hqa (by simp; omega) hbd1 hqb
          exact ⟨d1, hd1, hbd1, this _ hqb1, h1w⟩
        · by_cases h2w : d2.len < w
          · have := nest_mem (hal d2 hd2) hqa (by simp; omega) hbd2 hqb1
            exact ⟨d2, hd2, this _ hqb, hbd2, h2w⟩
          · exfalso
            have hd1l : d1.len = w := by
              have := (alignedC_iff.mp (hal d1 hd1)).1
              omega
            have hd2l : d2.len = w := by
              have := (alignedC_iff.mp (hal d2 hd2)).1
              omega
            have hs1 : cSize w d1 = 1 := by
              unfold cSize
              rw [hd1l]
              simp
            have hs2 : cSize w d2 = 1 := by
              unfold cSize
              rw [hd2l]
              simp
            rw [inC_eq_true_iff, hs1] at hbd1
            rw [inC_eq_true_iff, hs2] at hbd2
            have he1 : d1 = Cidr.mk b w := by
              cases d1
              simp at hd1l hbd1 ⊢
              omega
            have he2 : d2 = Cidr.mk (b + 1) w := by
              cases d2
              simp at hd2l hbd2 ⊢
              omega
            subst he1
            subst he2
            exact Canon_noSib hC _ hd1 rfl hbe hd2
      obtain ⟨d, hdS, hdb, _, hdw⟩ := hq
      obtain ⟨S1, S2, hSeq, hS1⟩ := iterBreak_split hsel (by simp [hfit])
      have hdnot1 : d ∉ S1 := by
        intro hmem
        have := hS1 d hmem
        simp [hdw] at this
      rw [inC_eq_true_iff] at hdb
      subst hSeq
      rcases List.mem_append.mp hdS with hmem | hmem
      · exact hdnot1 hmem
      · rcases List.mem_cons.mp hmem with rfl | hmem
        · omega
        · have hpw := (List.pairwise_append.mp hch).2.1
          have := (List.pairwise_cons.mp hpw).1 d hmem
          unfold cOrd at this
          omega

theorem filter_eq_cons_of_least {p q : Nat → Bool} {a : Nat}
    (hq : ∀ b, q b = (p b && !(decide (b = a)))) :
    ∀ {l : List Nat}, List.Pairwise (· < ·) l → a ∈ l → p a = true →
    (∀ b ∈ l, p b = true → a ≤ b) →
    l.filter p = a :: l.filter q := by
  intro l
  induction l with
  | nil => intro _ ha; simp at ha
  | cons h t ih =>
    intro hpw hmem hpa hmin
    rw [List.pairwise_cons] at hpw
    rcases List.mem_cons.mp hmem with rfl | hmem
    · rw [List.filter_cons_of_pos hpa]
      have hqa : q a = false := by
        rw [hq]
        simp
      rw [List.filter_cons_of_neg (by simp [hqa])]
      congr 1
      apply List.filter_congr
      intro b hb
      have hlt := hpw.1 b hb
      have hne : ¬ b = a := by omega
      rw [hq]
      simp [hne]
    · have hlt : h < a := hpw.1 a hmem
      have hph : p h = false := by
        cases hv : p h
        · rfl
        · have := hmin h (by simp) hv
          omega
      rw [List.filter_cons_of_neg (by simp [hph]),
        List.filter_cons_of_neg (by simp [hq, hph])]
      exact ih hpw.2 hmem hpa fun b hb hpb => hmin b (by simp [hb]) hpb

theorem pairAvail_removeCidr {w : Nat} {S : List Cidr} {c0 : Nat}
    (hS : ∀ t ∈ S, alignedC w t = true) (h2 : 2 ≤ w) (heven : c0 % 2 = 0) :
    ∀ b, pairAvail w (removeCidr w S ⟨c0, w - 1⟩) b
      = (pairAvail w S b && !(decide (b = c0))) := by
  intro b
  have hxa : alignedC w (⟨c0, w - 1⟩ : Cidr) = true := aligned_pair h2 heven
  have hxs : cSize w (⟨c0, w - 1⟩ : Cidr) = 2 := cSize_pair h2
  unfold pairAvail
  rw [memS_removeCidr hS hxa b, memS_removeCidr hS hxa (b + 1)]
  by_cases hbe : b % 2 = 0
  · by_cases heq : b = c0
    · subst heq
      have hib : inC w ⟨b, w - 1⟩ b = true := by
        rw [inC_eq_true_iff, hxs]
        show b ≤ b ∧ b < b + 2
        omega
      have hib1 : inC w ⟨b, w - 1⟩ (b + 1) = true := by
        rw [inC_eq_true_iff, hxs]
        show b ≤ b + 1 ∧ b + 1 < b + 2
        omega
      rw [hib, hib1]
      simp
    · have hib : inC w ⟨c0, w - 1⟩ b = false := by
        cases hv : inC w ⟨c0, w - 1⟩ b
        · rfl
        · exfalso
          rw [inC_eq_true_iff, hxs] at hv
          have hv' : c0 ≤ b ∧ b < c0 + 2 := hv
          omega
      have hib1 : inC w ⟨c0, w - 1⟩ (b + 1) = false := by
        cases hv : inC w ⟨c0, w - 1⟩ (b + 1)
        · rfl
        · exfalso
          rw [inC_eq_true_iff, hxs] at hv
          have hv' : c0 ≤ b + 1 ∧ b + 1 < c0 + 2 := hv
          omega
      rw [hib, hib1]
      simp [heq]
  · simp [hbe]

theorem allocStep_some {w : Nat} {S : List Cidr} {c : Cidr} {b b1 : Nat}
    {S' : List Cidr} (h : allocStep w S = some (c, b, b1, S')) :
    iterBreakSelect (fun c => decide (c.len < w)) S = some c ∧
    b = alignDown c.base 2 ∧ b1 = b + 1 ∧
    S' = removeCidr w S ⟨b, w - 1⟩ := by
  unfold allocStep at h
  cases hsel : iterBreakSelect (fun c => decide (c.len < w)) S with
  | none => rw [hsel] at h; simp at h
  | some c' =>
    rw [hsel] at h
    simp only [Option.some.injEq, Prod.mk.injEq] at h
    obtain ⟨rfl, rfl, rfl, rfl⟩ := h
    exact ⟨rfl, rfl, rfl, rfl⟩

/-- Main allocation-run theorem: under the canonical-set invariant, as
long as every allocation finds a fitting range, the run hands out
exactly the `n` lowest available point-to-point subnets in order, and
every allocated address is gone from the remaining set. -/
theorem allocRun_spec {w : Nat} :
    ∀ (n : Nat) (S : List Cidr) (N : Nat), Canon w S = true →
    setEnd w S ≤ N → goodRun w n S = true →
    (allocRun w n S).1 = (availBases w N S).take n
    ∧ (∀ a, memS w (allocRun w n S).2 a = true → memS w S a = true)
    ∧ ∀ b ∈ (allocRun w n S).1,
        memS w (allocRun w n S).2 b = false ∧
        memS w (allocRun w n S).2 (b + 1) = false := by
  intro n
  induction n with
  | zero =>
    intro S N hC hN hg
    exact ⟨by simp [allocRun], fun a h => h, by simp [allocRun]⟩
  | succ n ih =>
    intro S N hC hN hg
    cases hsel0 : allocStep w S with
    | none =>
      rw [goodRun, hsel0] at hg
      simp at hg
    | some t =>
      obtain ⟨c, b, b1, S'⟩ := t
      obtain ⟨hsel, hbd, hb1, hS'⟩ := allocStep_some hsel0
      rw [goodRun, hsel0] at hg
      rw [Bool.and_eq_true, decide_eq_true_iff] at hg
      obtain ⟨hfit, hgood⟩ := hg
      have h2 := Canon_two_le hC
      have hal := Canon_aligned hC
      have hcS := iterBreak_mem hsel
      have hca := hal c hcS
      have heven := two_dvd_base hca hfit
      have hbeq : b = c.base := by rw [hbd, alignDown_two heven]
      subst hbeq
      have hxa : alignedC w (⟨c.base, w - 1⟩ : Cidr) = true :=
        aligned_pair h2 heven
      have hxs : cSize w (⟨c.base, w - 1⟩ : Cidr) = 2 := cSize_pair h2
      subst hS'
      have hC' : Canon w (removeCidr w S ⟨c.base, w - 1⟩) = true :=
        Canon_removeCidr hC hxa rfl
      have hmm : ∀ a, memS w (removeCidr w S ⟨c.base, w - 1⟩) a
          = (memS w S a && !inC w ⟨c.base, w - 1⟩ a) :=
        memS_removeCidr hal hxa
      have hN' : setEnd w (removeCidr w S ⟨c.base, w - 1⟩) ≤ N :=
        le_trans (setEnd_removeCidr_le hal hxa) hN
      have hlow := alloc_lowest hC hsel hfit
      have hmem0 : memS w S c.base = true := by
        have h := hlow.1
        unfold pairAvail at h
        rw [Bool.and_eq_true, Bool.and_eq_true] at h
        exact h.1.2
      have hcons : availBases w N S
          = c.base :: availBases w N (removeCidr w S ⟨c.base, w - 1⟩) := by
        refine filter_eq_cons_of_least
          (fun b' => pairAvail_removeCidr hal h2 heven b')
          (List.pairwise_lt_range N)
          (List.mem_range.mpr (lt_of_lt_of_le (memS_lt_setEnd hmem0) hN))
          hlow.1 ?_
        intro b' _ hpb'
        by_contra hlt
        rw [hlow.2 b' (by omega)] at hpb'
        exact Bool.false_ne_true hpb'
      obtain ⟨ih1, ih2, ih3⟩ := ih (removeCidr w S ⟨c.base, w - 1⟩) N hC' hN' hgood
      have hrunEq : allocRun w (n + 1) S
          = (c.base :: (allocRun w n (removeCidr w S ⟨c.base, w - 1⟩)).1,
             (allocRun w n (removeCidr w S ⟨c.base, w - 1⟩)).2) := by
        rw [allocRun, hsel0]
      have hfin : ∀ a, inC w ⟨c.base, w - 1⟩ a = true →
          memS w (allocRun w n (removeCidr w S ⟨c.base, w - 1⟩)).2 a = false := by
        intro a hina
        cases hv : memS w (allocRun w n (removeCidr w S ⟨c.base, w - 1⟩)).2 a
        · rfl
        · exfalso
          have hmem := ih2 a hv
          rw [hmm a, Bool.and_eq_true, hina] at hmem
          simp at hmem
      refine ⟨?_, ?_, ?_⟩
      · rw [hrunEq, hcons, List.take_succ_cons, ih1]
      · intro a ha
        rw [hrunEq] at ha
        have := ih2 a ha
        rw [hmm a, Bool.and_eq_true] at this
        exact this.1
      · intro b' hb'
        rw [hrunEq] at hb' ⊢
        rcases List.mem_cons.mp hb' with rfl | hb'
        · constructor
          · exact hfin _ (by
              rw [inC_eq_true_iff, hxs]
              show c.base ≤ c.base ∧ c.base < c.base + 2
              omega)
          · exact hfin _ (by
              rw [inC_eq_true_iff, hxs]
              show c.base ≤ c.base + 1 ∧ c.base + 1 < c.base + 2
              omega)
        · exact ih3 b' hb'

theorem first_fit_le {w : Nat} {S : List Cidr} {c : Cidr}
    (hC : Canon w S = true)
    (hsel : iterBreakSelect (fun c => decide (c.len < w)) S = some c)
    (hfit : c.len < w) :
    ∀ d ∈ S, d.len < w → c.base ≤ d.base := by
  intro d hd hdw
  obtain ⟨S1, S2, hSeq, hS1⟩ := iterBreak_split hsel (by simp [hfit])
  have hch := Canon_chain hC
  subst hSeq
  rcases List.mem_append.mp hd with hmem | hmem
  · have := hS1 d hmem
    simp [hdw] at this
  · rcases List.mem_cons.mp hmem with rfl | hmem
    · exact Nat.le_refl _
    · have hpw := (List.pairwise_append.mp hch).2.1
      have hcd := (List.pairwise_cons.mp hpw).1 d hmem
      unfold cOrd at hcd
      have := cSize_pos (w := w) (c := c)
      omega

/-- An IPv4 address from its dotted quads. -/
def ipv4 (a b c d : Nat) : Nat := ((a * 256 + b) * 256 + c) * 256 + d

/-- The IPv6 address `2001:db8::` (`0x20010db8` in the top 32 bits). -/
def ip6db8 : Nat := 536939960 * 2 ^ 96

/-- C1: pair allocation scans the block's available ranges in ascending
address order, selects the first range that can hold a subnet of the
requested length (`/31` for IPv4, `/127` for IPv6), carves that subnet
from the start of the range and returns its first address as the primary
and its second as the secondary; against a fully available
`10.0.0.0/24` block the first IPv4 pair is `(10.0.0.0, 10.0.0.1)`, and
against a fully available `2001:db8::/64` block the first IPv6 pair is
`(2001:db8::, 2001:db8::1)`. -/
theorem c1_pair_allocation :
    ((allocStep 32 [⟨ipv4 10 0 0 0, 24⟩]).map (fun r => (r.2.1, r.2.2.1))
        = some (ipv4 10 0 0 0, ipv4 10 0 0 1))
    ∧ ((allocStep 128 [⟨ip6db8, 64⟩]).map (fun r => (r.2.1, r.2.2.1))
        = some (ip6db8, ip6db8 + 1))
    ∧ ∀ (w : Nat) (S : List Cidr), Canon w S = true →
      ((∃ d ∈ S, d.len < w) →
        ∃ c rest, allocStep w S = some (c, rest) ∧ c.len < w)
      ∧ ∀ c b b1 S', allocStep w S = some (c, b, b1, S') → c.len < w →
        c ∈ S
        ∧ (∃ S1 S2, S = S1 ++ c :: S2 ∧ ∀ e ∈ S1, ¬ e.len < w)
        ∧ (∀ d ∈ S, d.len < w → c.base ≤ d.base)
        ∧ b = c.base ∧ b1 = c.base + 1
        ∧ memS w S b = true ∧ memS w S b1 = true
        ∧ S' = removeCidr w S ⟨c.base, w - 1⟩ := by
  refine ⟨by decide, by decide, ?_⟩
  intro w S hC
  constructor
  · intro hex
    obtain ⟨d, hd, hdw⟩ := hex
    obtain ⟨c, hsel, hpc⟩ :=
      iterBreak_exists (p := fun c => decide (c.len < w)) ⟨d, hd, by simp [hdw]⟩
    rw [decide_eq_true_iff] at hpc
    refine ⟨c, (alignDown c.base 2, alignDown c.base 2 + 1,
      removeCidr w S ⟨alignDown c.base 2, w - 1⟩), ?_, hpc⟩
    unfold allocStep
    rw [hsel]
  · intro c b b1 S' hstep hfit
    obtain ⟨hsel, hbd, hb1, hS'⟩ := allocStep_some hstep
    have hcS := iterBreak_mem hsel
    have hca := Canon_aligned hC c hcS
    have heven := two_dvd_base hca hfit
    have hbeq : b = c.base := by rw [hbd, alignDown_two heven]
    subst hbeq
    subst hb1
    subst hS'
    obtain ⟨S1, S2, hSeq, hS1⟩ := iterBreak_split hsel (by simp [hfit])
    refine ⟨hcS, ⟨S1, S2, hSeq, fun e he => by simpa using hS1 e he⟩,
      first_fit_le hC hsel hfit, rfl, rfl, ?_, ?_, rfl⟩
    · exact memS_eq_true_iff.mpr ⟨c, hcS, inC_base⟩
    · exact memS_eq_true_iff.mpr ⟨c, hcS, inC_base_succ hfit⟩

theorem c1_pair_allocation_witness :
    Canon 32 [⟨ipv4 10 0 0 0, 24⟩] = true ∧
    memS 32 [⟨ipv4 10 0 0 0, 24⟩] (ipv4 10 0 0 0) = true := by
  refine ⟨by decide, ?_⟩
  have h := (c1_pair_allocation.2.2 32 [⟨ipv4 10 0 0 0, 24⟩] (by decide)).2
    ⟨ipv4 10 0 0 0, 24⟩ (ipv4 10 0 0 0) (ipv4 10 0 0 1)
    (removeCidr 32 [⟨ipv4 10 0 0 0, 24⟩] ⟨ipv4 10 0 0 0, 31⟩)
    (by decide) (by decide)
  exact h.2.2.2.2.2.1

/-- C2: the claim says that when no available range can fit the
requested subnet the allocation fails with a `PoolExhausted`
cancellation and carves nothing. The code has no such check: on a set
whose only range is the single host `10.0.0.5/32` (nothing fits a
`/31`), the loop falls through, the code carves the pair
`(10.0.0.4, 10.0.0.5)` anyway — the primary `10.0.0.4` is not even an
available address — and on an empty set the loop variable stays unbound
(`NameError`, a fatal fault, modelled as `none`). The in-code comment
`# Still need to check for available IPs here` in `add_pni.py`
documents the missing check. -/
theorem c2_no_pool_exhausted_check :
    ([(⟨ipv4 10 0 0 5, 32⟩ : Cidr)].all (fun c => !decide (c.len < 32)) = true)
    ∧ allocStep 32 [⟨ipv4 10 0 0 5, 32⟩]
        = some (⟨ipv4 10 0 0 5, 32⟩, ipv4 10 0 0 4, ipv4 10 0 0 5, [])
    ∧ memS 32 [⟨ipv4 10 0 0 5, 32⟩] (ipv4 10 0 0 4) = false
    ∧ allocStep 32 ([] : List Cidr) = none := by
  exact ⟨by decide, by decide, by decide, rfl⟩

/-- C3: within one Generate run, repeated pair allocations against one
block never overlap — each carved subnet is removed from the available
set before the next allocation — and the n-th allocation returns the
n-th lowest available subnet of the requested size: the list of
allocated pair bases is exactly the first `n` entries of the ascending
list of available pair bases, the bases are even and pairwise more than
one apart (so the `/31` or `/127` pairs are disjoint), and no allocated
address remains in the final available set. -/
theorem c3_repeated_allocation (w n N : Nat) (S : List Cidr)
    (hC : Canon w S = true) (hN : setEnd w S ≤ N)
    (hg : goodRun w n S = true) :
    (allocRun w n S).1 = (availBases w N S).take n
    ∧ (∀ b ∈ (allocRun w n S).1, b % 2 = 0)
    ∧ List.Pairwise (fun b b' => b + 1 < b') (allocRun w n S).1
    ∧ ∀ b ∈ (allocRun w n S).1,
        memS w (allocRun w n S).2 b = false ∧
        memS w (allocRun w n S).2 (b + 1) = false := by
  obtain ⟨h1, _, h3⟩ := allocRun_spec n S N hC hN hg
  have heven : ∀ b ∈ availBases w N S, b % 2 = 0 := by
    intro b hb
    unfold availBases at hb
    have hp := (List.mem_filter.mp hb).2
    unfold pairAvail at hp
    rw [Bool.and_eq_true, Bool.and_eq_true, decide_eq_true_iff] at hp
    exact hp.1.1
  refine ⟨h1, ?_, ?_, h3⟩
  · intro b hb
    rw [h1] at hb
    exact heven b (List.take_subset _ _ hb)
  · rw [h1]
    have hpw : List.Pairwise (· < ·) (availBases w N S) :=
      List.Pairwise.filter _ (List.pairwise_lt_range N)
    have hpw2 : List.Pairwise (fun b b' => b + 1 < b') (availBases w N S) := by
      refine List.Pairwise.imp_of_mem ?_ hpw
      intro a b ha hb hlt
      have h1 := heven a ha
      have h2 := heven b hb
      omega
    exact hpw2.sublist (List.take_sublist n _)

theorem c3_repeated_allocation_witness :
    (Canon 32 [⟨0, 30⟩] = true ∧ setEnd 32 [⟨0, 30⟩] ≤ 4 ∧
      goodRun 32 2 [⟨0, 30⟩] = true) ∧
    (allocRun 32 2 [⟨0, 30⟩]).1 = (availBases 32 4 [⟨0, 30⟩]).take 2 := by
  refine ⟨⟨by decide, by decide, by decide⟩, ?_⟩
  exact (c3_repeated_allocation 32 2 4 [⟨0, 30⟩]
    (by decide) (by decide) (by decide)).1

/-! Embedding of `util/tags.py`: semantic key/value labels. -/

/-- KV delimiter used in semantic tags (`DELIMITER='='`). -/
def DELIMITER : String := "="

/-- A netbox Tag as far as the tag utilities use it: its unique name. -/
structure NbTag where
  name : String
  deriving DecidableEq

/-- `lazy_load_tag`: get-or-create a tag by exact name against the tag
store (the list of existing tag names); returns the updated store and
the tag. -/
def lazy_load_tag (store : List String) (name : String) : List String × NbTag :=
  if store.any (fun s => decide (s = name)) then (store, ⟨name⟩)
  else (store ++ [name], ⟨name⟩)

/-- Python `s.split('=')` on the single-character delimiter: cut at every
delimiter occurrence. -/
def splitCh : List Char → List Char → List (List Char)
  | [], acc => [acc.reverse]
  | c :: rest, acc =>
      if c = '=' then acc.reverse :: splitCh rest []
      else splitCh rest (c :: acc)

/-- Python `t.name.split(DELIMITER)` for the fixed one-character
delimiter. -/
def splitEq (s : String) : List String :=
  (splitCh s.toList []).map (fun l => String.mk l)

/-- Python `DELIMITER in t.name` for the one-character delimiter. -/
def hasDelim (s : String) : Bool := s.toList.any (fun c => decide (c = '='))

/-- Insertion into a Python dict built by a comprehension: a later entry
with the same key overwrites the value in place, otherwise it is
appended. -/
def insertKV (d : List (String × String)) (k v : String) :
    List (String × String) :=
  if d.any (fun p => decide (p.1 = k)) then
    d.map (fun p => if decide (p.1 = k) = true then (p.1, v) else p)
  else d ++ [(k, v)]

/-- `parse_semantic_tags`: dict comprehension over the tag collection,
splitting each delimiter-carrying name on the delimiter and mapping
piece 0 to piece 1; names without the delimiter are skipped. -/
def parse_semantic_tags (ts : List NbTag) : List (String × String) :=
  ts.foldl (fun d t =>
    if hasDelim t.name then
      insertKV d ((splitEq t.name).getD 0 "") ((splitEq t.name).getD 1 "")
    else d) []

/-- Dictionary lookup. -/
def lookupKV (d : List (String × String)) (k : String) : Option String :=
  (d.find? (fun p => decide (p.1 = k))).map (fun p => p.2)

/-- `make_semantic_tag(k, v)`: a tag named `k=v` (the store side of
`lazy_load_tag` does not change the name, so only the tag is kept
here). -/
def make_semantic_tag (k v : String) : NbTag := ⟨k ++ DELIMITER ++ v⟩

theorem toList_append {a b : String} : (a ++ b).toList = a.toList ++ b.toList := by
  cases a
  cases b
  rfl

theorem mk_toList {s : String} : String.mk s.toList = s := by
  cases s
  rfl

theorem splitCh_no_delim :
    ∀ (l acc : List Char), ('=' : Char) ∉ l →
      splitCh l acc = [acc.reverse ++ l] := by
  intro l
  induction l with
  | nil => intro acc _; simp [splitCh]
  | cons c rest ih =>
    intro acc hnd
    have hc : ¬ c = '=' := fun h => hnd (by simp [h])
    rw [splitCh, if_neg hc, ih (c :: acc) (fun h => hnd (by simp [h]))]
    simp

theorem splitCh_semantic :
    ∀ (k : List Char) (acc v : List Char), ('=' : Char) ∉ k →
      ('=' : Char) ∉ v →
      splitCh (k ++ '=' :: v) acc = [acc.reverse ++ k, v] := by
  intro k
  induction k with
  | nil =>
    intro acc v _ hv
    rw [List.nil_append, splitCh, if_pos rfl, splitCh_no_delim v [] hv]
    simp
  | cons c k' ih =>
    intro acc v hk hv
    have hc : ¬ c = '=' := fun h => hk (by simp [h])
    rw [List.cons_append, splitCh, if_neg hc,
      ih (c :: acc) v (fun h => hk (by simp [h])) hv]
    simp

theorem splitEq_semantic {k v : String}
    (hk : ('=' : Char) ∉ k.toList) (hv : ('=' : Char) ∉ v.toList) :
    splitEq ((make_semantic_tag k v).name) = [k, v] := by
  have hd : DELIMITER.toList = ['='] := by decide
  have hl : ((make_semantic_tag k v).name).toList
      = k.toList ++ '=' :: v.toList := by
    show (k ++ DELIMITER ++ v).toList = _
    rw [toList_append, toList_append, hd]
    simp
  unfold splitEq
  rw [hl, splitCh_semantic k.toList [] v.toList hk hv]
  simp [mk_toList]

theorem hasDelim_semantic {k v : String} :
    hasDelim ((make_semantic_tag k v).name) = true := by
  have hd : DELIMITER.toList = ['='] := by decide
  unfold hasDelim
  rw [List.any_eq_true]
  refine ⟨'=', ?_, by simp⟩
  show '=' ∈ (k ++ DELIMITER ++ v).toList
  rw [toList_append, toList_append, hd]
  simp

theorem lookupKV_insertKV (k v : String) :
    ∀ d, lookupKV (insertKV d k v) k = some v := by
  intro d
  induction d with
  | nil =>
    unfold insertKV
    simp [lookupKV]
  | cons p rest ih =>
    by_cases hp : p.1 = k
    · unfold insertKV
      rw [if_pos (by simp [hp])]
      unfold lookupKV
      rw [List.map_cons, List.find?_cons_of_pos _ (by simp [hp])]
      simp [hp]
    · have hph : decide (p.1 = k) = false := by simp [hp]
      by_cases hr : rest.any (fun q => decide (q.1 = k)) = true
      · have hcond : (p :: rest).any (fun q => decide (q.1 = k)) = true := by
          rw [List.any_cons, hph, hr]
          rfl
        unfold insertKV
        rw [if_pos hcond]
        unfold insertKV at ih
        rw [if_pos hr] at ih
        unfold lookupKV at ih ⊢
        simp only [List.map_cons, hph, Bool.false_eq_true, if_false]
        rw [List.find?_cons_of_neg _ (by simp [hp])]
        exact ih
      · have hcond : ¬ ((p :: rest).any (fun q => decide (q.1 = k)) = true) := by
          rw [List.any_cons, hph]
          simpa using hr
        unfold insertKV
        rw [if_neg hcond]
        unfold insertKV at ih
        rw [if_neg hr] at ih
        unfold lookupKV at ih ⊢
        rw [List.cons_append, List.find?_cons_of_neg _ (by simp [hp])]
        exact ih

theorem parse_append (ts : List NbTag) (t : NbTag) :
    parse_semantic_tags (ts ++ [t])
      = (fun d u =>
          if hasDelim u.name then
            insertKV d ((splitEq u.name).getD 0 "") ((splitEq u.name).getD 1 "")
          else d) (parse_semantic_tags ts) t := by
  unfold parse_semantic_tags
  rw [List.foldl_append]
  rfl

theorem foldl_skip {ts : List NbTag} :
    ∀ (d : List (String × String)), (∀ t ∈ ts, hasDelim t.name = false) →
    ts.foldl (fun d t =>
      if hasDelim t.name then
        insertKV d ((splitEq t.name).getD 0 "") ((splitEq t.name).getD 1 "")
      else d) d = d := by
  induction ts with
  | nil => intro d _; rfl
  | cons t r ih =>
    intro d hall
    rw [List.foldl_cons, hall t (by simp)]
    simp only [Bool.false_eq_true, if_false]
    exact ih d (fun u hu => hall u (by simp [hu]))

/-- C9 counterexample: the claim promises the round trip for every key
and value, but a value containing the delimiter does not survive:
`make_semantic_tag "a" "b=c"` produces the name `a=b=c`, and parsing
maps `a` back to `b` (only the piece after the first delimiter), not to
`b=c`. -/
theorem c9_semantic_roundtrip_cex :
    lookupKV (parse_semantic_tags [make_semantic_tag "a" "b=c"]) "a" = some "b"
    ∧ ¬ lookupKV (parse_semantic_tags [make_semantic_tag "a" "b=c"]) "a"
        = some "b=c" := by
  exact ⟨by decide, by decide⟩

/-- C9 (amended): semantic labels round-trip through the wire form for
every key and value that do not themselves contain the delimiter:
creating produces a label named `k=v`, parsing a collection in which it
occurs last maps `k` back to `v`, and parsing ignores every label whose
name contains no delimiter. (A value or key containing the delimiter
parses back as only its first delimiter-separated piece.) -/
theorem c9_semantic_roundtrip_amended (k v : String)
    (hk : ('=' : Char) ∉ k.toList) (hv : ('=' : Char) ∉ v.toList) :
    (make_semantic_tag k v).name = k ++ DELIMITER ++ v
    ∧ (∀ ts : List NbTag,
        lookupKV (parse_semantic_tags (ts ++ [make_semantic_tag k v])) k
          = some v)
    ∧ ∀ ts : List NbTag, (∀ t ∈ ts, hasDelim t.name = false) →
        parse_semantic_tags ts = [] := by
  refine ⟨rfl, ?_, ?_⟩
  · intro ts
    rw [parse_append]
    simp only [hasDelim_semantic, if_true]
    rw [splitEq_semantic hk hv]
    have h0 : ([k, v]).getD 0 "" = k := rfl
    have h1 : ([k, v]).getD 1 "" = v := rfl
    rw [h0, h1]
    exact lookupKV_insertKV k v (parse_semantic_tags ts)
  · intro ts hall
    unfold parse_semantic_tags
    exact foldl_skip _ hall

theorem c9_semantic_roundtrip_witness :
    (('=' : Char) ∉ "pni:asn".toList) ∧ (('=' : Char) ∉ "65000".toList) ∧
    lookupKV
      (parse_semantic_tags ([⟨"l2ptp"⟩] ++ [make_semantic_tag "pni:asn" "65000"]))
      "pni:asn" = some "65000" := by
  refine ⟨by decide, by decide, ?_⟩
  exact (c9_semantic_roundtrip_amended "pni:asn" "65000" (by decide)
    (by decide)).2.1 [⟨"l2ptp"⟩]

/-! Embedding of `GenerateNew.run.get_ips` (renumber.py lines 44-81):
resolution of a prefix parameter supplied as an object reference, a
numeric id, or a prefix string. -/

/-- A persisted netbox Prefix as `get_ips` uses it: id, prefix string,
address family, and the available set its `get_available_ips()` query
returns. -/
structure PfxRec where
  pid : Nat
  pfx : String
  family : Nat
  avail : List Cidr
  deriving DecidableEq

/-- The three input shapes of a prefix parameter. -/
inductive InPfx where
  | obj : PfxRec → InPfx
  | byId : Nat → InPfx
  | byStr : String → InPfx
  deriving DecidableEq

/-- `get_ips(in_prefix, family)`. Int input: `Prefix.objects.get(id=..)`
— when the id is missing the `except DoesNotExist:` handler on line 55
references an unbound name (`DoesNotExist` is never imported: the
`extras.scripts` star import does not export it, and add_pni.py has
to pull in `ObjectDoesNotExist` explicitly), so evaluating the except
clause raises `NameError`: a fatal fault, never the `CancelScript` the
handler body intends — then a family check (a `CancelScript`), then the
available set. String input: `Prefix.objects.filter(prefix=..)`; empty
is a `CancelScript`, then `assert len(p) == 1` (an `AssertionError`,
i.e. a fault, when more than one prefix matches), then a family check
on the single match. Object input is trusted as-is ("we assume that
prefix ... is thus valid"). -/
def get_ips (store : List PfxRec) (inp : InPfx) (family : Nat) :
    Except RunErr (List Cidr) :=
  match inp with
  | .byId n =>
      match store.find? (fun p => decide (p.pid = n)) with
      | none => .error (.fault "NameError: name DoesNotExist is not defined")
      | some p =>
          if p.family ≠ family then
            .error (.cancel "Prefix id: address family mismatch")
          else .ok p.avail
  | .byStr s =>
      match store.filter (fun p => decide (p.pfx = s)) with
      | [] => .error (.cancel "Prefix not found in Netbox")
      | [p] =>
          if p.family ≠ family then
            .error (.cancel "Prefix: address family mismatch")
          else .ok p.avail
      | _ :: _ :: _ => .error (.fault "AssertionError")
  | .obj p => .ok p.avail

/-- C6 counterexample: the claim says that whenever the supplied value
does not match exactly one block of the required family, resolution
fails with a Cancellation and never a fatal fault — but when a prefix
string matches two persisted blocks, `assert len(p) == 1` raises an
`AssertionError`, a fatal fault, not a `CancelScript`; and a missing
numeric id dies with a `NameError` (the `except DoesNotExist` clause
names an unbound identifier), also a fatal fault. -/
theorem c6_block_resolution_cex :
    get_ips [⟨1, "10.0.0.0/24", 4, [⟨ipv4 10 0 0 0, 24⟩]⟩,
             ⟨2, "10.0.0.0/24", 4, [⟨ipv4 10 0 0 0, 24⟩]⟩]
      (InPfx.byStr "10.0.0.0/24") 4 = .error (.fault "AssertionError")
    ∧ ([⟨1, "10.0.0.0/24", 4, [⟨ipv4 10 0 0 0, 24⟩]⟩,
        (⟨2, "10.0.0.0/24", 4, [⟨ipv4 10 0 0 0, 24⟩]⟩ : PfxRec)].filter
          (fun p => decide (p.pfx = "10.0.0.0/24"))).length = 2
    ∧ get_ips [⟨1, "10.0.0.0/24", 4, [⟨ipv4 10 0 0 0, 24⟩]⟩] (InPfx.byId 2) 4
        = .error (.fault "NameError: name DoesNotExist is not defined") := by
  exact ⟨rfl, by decide, rfl⟩

/-- C6 (amended): a block parameter supplied as an object reference, a
numeric id, or a prefix string resolves to the same block when the id
and the string match exactly that block and the family agrees. A
wrong-family id match, a string matching no block, and a string whose
unique match has the wrong family fail with a Cancellation; but a
missing id raises `NameError` — the `except DoesNotExist` clause
references an unbound name — a fatal fault, a string matching more
than one block fails the `assert` with an `AssertionError`, also a
fatal fault, and an object reference is trusted without any check. -/
theorem c6_block_resolution_amended (store : List PfxRec) (p : PfxRec)
    (fam : Nat) :
    (store.find? (fun q => decide (q.pid = p.pid)) = some p →
      store.filter (fun q => decide (q.pfx = p.pfx)) = [p] →
      p.family = fam →
      get_ips store (.obj p) fam = .ok p.avail ∧
      get_ips store (.byId p.pid) fam = .ok p.avail ∧
      get_ips store (.byStr p.pfx) fam = .ok p.avail)
    ∧ (∀ n, store.find? (fun q => decide (q.pid = n)) = none →
        ∃ m, get_ips store (.byId n) fam = .error (.fault m))
    ∧ (∀ n q, store.find? (fun q' => decide (q'.pid = n)) = some q →
        ¬ q.family = fam →
        ∃ m, get_ips store (.byId n) fam = .error (.cancel m))
    ∧ (∀ s, store.filter (fun q => decide (q.pfx = s)) = [] →
        ∃ m, get_ips store (.byStr s) fam = .error (.cancel m))
    ∧ (∀ s q, store.filter (fun q' => decide (q'.pfx = s)) = [q] →
        ¬ q.family = fam →
        ∃ m, get_ips store (.byStr s) fam = .error (.cancel m))
    ∧ (∀ s q1 q2 qs,
        store.filter (fun q => decide (q.pfx = s)) = q1 :: q2 :: qs →
        ∃ m, get_ips store (.byStr s) fam = .error (.fault m)) := by
  refine ⟨?_, ?_, ?_, ?_, ?_, ?_⟩
  · intro hfind hfilter hfam
    refine ⟨rfl, ?_, ?_⟩
    · show get_ips store (.byId p.pid) fam = .ok p.avail
      simp only [get_ips]
      rw [hfind]
      show (if p.family ≠ fam then
          Except.error (RunErr.cancel "Prefix id: address family mismatch")
        else Except.ok p.avail) = Except.ok p.avail
      rw [if_neg (by simp [hfam])]
    · show get_ips store (.byStr p.pfx) fam = .ok p.avail
      simp only [get_ips]
      rw [hfilter]
      show (if p.family ≠ fam then
          Except.error (RunErr.cancel "Prefix: address family mismatch")
        else Except.ok p.avail) = Except.ok p.avail
      rw [if_neg (by simp [hfam])]
  · intro n hfind
    refine ⟨"NameError: name DoesNotExist is not defined", ?_⟩
    simp only [get_ips]
    rw [hfind]
  · intro n q hfind hfam
    refine ⟨"Prefix id: address family mismatch", ?_⟩
    simp only [get_ips]
    rw [hfind]
    show (if q.family ≠ fam then
        Except.error (RunErr.cancel "Prefix id: address family mismatch")
      else Except.ok q.avail)
      = Except.error (RunErr.cancel "Prefix id: address family mismatch")
    rw [if_pos hfam]
  · intro s hfilter
    refine ⟨"Prefix not found in Netbox", ?_⟩
    simp only [get_ips]
    rw [hfilter]
  · intro s q hfilter hfam
    refine ⟨"Prefix: address family mismatch", ?_⟩
    simp only [get_ips]
    rw [hfilter]
    show (if q.family ≠ fam then
        Except.error (RunErr.cancel "Prefix: address family mismatch")
      else Except.ok q.avail)
      = Except.error (RunErr.cancel "Prefix: address family mismatch")
    rw [if_pos hfam]
  · intro s q1 q2 qs hfilter
    refine ⟨"AssertionError", ?_⟩
    simp only [get_ips]
    rw [hfilter]

theorem c6_block_resolution_amended_witness :
    get_ips [⟨1, "10.0.0.0/24", 4, [⟨ipv4 10 0 0 0, 24⟩]⟩] (InPfx.byId 1) 4
      = .ok [⟨ipv4 10 0 0 0, 24⟩]
    ∧ get_ips [⟨1, "10.0.0.0/24", 4, [⟨ipv4 10 0 0 0, 24⟩]⟩]
        (InPfx.byStr "10.0.0.0/24") 4 = .ok [⟨ipv4 10 0 0 0, 24⟩] := by
  have h := (c6_block_resolution_amended
    [⟨1, "10.0.0.0/24", 4, [⟨ipv4 10 0 0 0, 24⟩]⟩]
    ⟨1, "10.0.0.0/24", 4, [⟨ipv4 10 0 0 0, 24⟩]⟩ 4).1
    (by decide) (by decide) rfl
  exact ⟨h.2.1, h.2.2⟩

/-! Embedding of `CreateBundle.run` (add_pni.py lines 226-310). -/

/-- What an interface is wired to: a circuit termination (with its
circuit's type slug, circuit id and provider name), or anything else. -/
inductive LinkEnd where
  | circTerm (ctypeSlug : String) (cid : String) (provider : String)
  | other
  deriving DecidableEq

/-- The PNI circuit type slug constant of add_pni.py. -/
def PNICircuitTypeSlug : String := "private-network-interconnect"

/-- A member interface as `CreateBundle.run` reads it. -/
structure BIface where
  name : String
  countIps : Nat
  inLag : Bool
  links : List LinkEnd
  deriving DecidableEq

/-- Membership of a name among the interface names of the device
(`Interface.objects.filter(device=device, name=lacp_name)`). -/
def nameTaken (devNames : List String) (n : String) : Bool :=
  devNames.any (fun s => decide (s = n))

/-- Value of `lacp_name` after the loop

for i in range(0,101):
    lacp_name = f'bond' + str(i)
    if not Interface.objects.filter(device=device, name=lacp_name): break

the first free name if the loop breaks, else `bond100` (the loop simply
runs out with the variable holding the last candidate). -/
def bundleName (devNames : List String) : String :=
  match (List.range 101).find?
      (fun i => !nameTaken devNames ("bond" ++ toString i)) with
  | some i => "bond" ++ toString i
  | none => "bond100"

/-- The member-interface loop of `CreateBundle.run`: each member must
carry no addresses, belong to no LAG, and be wired to exactly one
termination of a PNI-type circuit; returns the per-member descriptions. -/
def bundleMembers (nm : String) : List BIface →
    Except RunErr (List (String × String))
  | [] => .ok []
  | m :: rest =>
      if 0 < m.countIps then
        .error (.cancel (m.name ++ " already has IPs assigned to it"))
      else if m.inLag then
        .error (.cancel (m.name ++ " already assigned to a LAG"))
      else
        match m.links with
        | [LinkEnd.circTerm ct cid prov] =>
            if ct = PNICircuitTypeSlug then
              (bundleMembers nm rest).map
                (fun ms => (m.name, nm ++ ": [" ++ prov ++ "][CID: " ++ cid ++ "]") :: ms)
            else .error (.cancel (m.name ++ " not wired to a valid circuit"))
        | _ => .error (.cancel (m.name ++ " not wired to a valid circuit"))

/-- `CreateBundle.run` after parameter extraction: fetch the PNI circuit
type (a fault when missing), pick the bundle name, create the LACP port
with that name unconditionally, fetch the optional hash/rate tags
(faults when missing), then run the member checks. Returns the created
port's name and the member descriptions. -/
def createBundle (ctypeExists : Bool) (tagsStore : List String)
    (devNames : List String) (members : List BIface)
    (l34 lacpSlow : Bool) :
    Except RunErr (String × List (String × String)) :=
  if ctypeExists = false then .error (.fault "CircuitType does not exist")
  else
    let nm := bundleName devNames
    if l34 && !(tagsStore.any (fun s => decide (s = "layer3+4"))) then
      .error (.fault "Tag does not exist")
    else if lacpSlow && !(tagsStore.any (fun s => decide (s = "lacp_slow"))) then
      .error (.fault "Tag does not exist")
    else (bundleMembers nm members).map (fun ms => (nm, ms))

theorem find?_first_sorted {p : Nat → Bool} :
    ∀ (l : List Nat), List.Pairwise (· < ·) l → ∀ i ∈ l, p i = true →
    (∀ j ∈ l, j < i → p j = false) → l.find? p = some i := by
  intro l
  induction l with
  | nil => intro _ i hi; simp at hi
  | cons h t ih =>
    intro hpw i hi hpi hsmall
    rcases List.mem_cons.mp hi with rfl | hit
    · rw [List.find?_cons_of_pos _ hpi]
    · have hlt : h < i := (List.pairwise_cons.mp hpw).1 i hit
      have hph : p h = false := hsmall h (by simp) hlt
      rw [List.find?_cons_of_neg _ (by simp [hph])]
      exact ih (List.pairwise_cons.mp hpw).2 i hit hpi
        (fun j hj hji => hsmall j (by simp [hj]) hji)

/-- All 101 names of the fixed sequence. -/
def allBondNames : List String := (List.range 101).map (fun i => "bond" ++ toString i)

/-- C7 counterexample: with every name `bond0`..`bond100` already taken
on the device, the claim demands a `BundleNamesExhausted` failure and no
port creation — but the loop just falls through leaving `bond100`, a
name already in use, and the run creates the bundle port with it and
returns successfully. -/
theorem c7_bundle_names_cex :
    bundleName allBondNames = "bond100"
    ∧ nameTaken allBondNames "bond100" = true
    ∧ createBundle true [] allBondNames [] false false
        = .ok ("bond100", []) := by
  refine ⟨by decide, by decide, ?_⟩
  show (bundleMembers (bundleName allBondNames) []).map _ = _
  rw [(by decide : bundleName allBondNames = "bond100")]
  rfl

/-- C7 (amended): bundle creation scans `bond0`..`bond100` and names the
new bundle port after the first name not already used on the target
device; the port is created with the selected name. But when all names
in the sequence are taken, there is no `BundleNamesExhausted` failure:
the loop falls through leaving `bond100` — already in use — and the
port is created with that duplicate name anyway. -/
theorem c7_bundle_naming_amended (devNames : List String) :
    (∀ i, i < 101 →
      nameTaken devNames ("bond" ++ toString i) = false →
      (∀ j, j < i → nameTaken devNames ("bond" ++ toString j) = true) →
      bundleName devNames = "bond" ++ toString i)
    ∧ ((∀ i, i < 101 → nameTaken devNames ("bond" ++ toString i) = true) →
      bundleName devNames = "bond100"
      ∧ nameTaken devNames "bond100" = true
      ∧ createBundle true [] devNames [] false false
          = .ok ("bond100", []))
    ∧ createBundle true [] devNames [] false false
        = .ok (bundleName devNames, []) := by
  have hcreate : createBundle true [] devNames [] false false
      = .ok (bundleName devNames, []) := by
    unfold createBundle
    rw [if_neg (by simp)]
    rfl
  refine ⟨?_, ?_, hcreate⟩
  · intro i hi hfree htaken
    unfold bundleName
    rw [find?_first_sorted (List.range 101) (List.pairwise_lt_range 101) i
      (List.mem_range.mpr hi) (by simp [hfree]) ?_]
    intro j _ hji
    simp [htaken j hji]
  · intro hall
    have hb : bundleName devNames = "bond100" := by
      unfold bundleName
      rw [List.find?_eq_none.mpr ?_]
      intro i hi
      simp [hall i (List.mem_range.mp hi)]
    have hn : nameTaken devNames "bond100" = true := by
      have := hall 100 (by omega)
      rwa [(by decide : ("bond" ++ toString 100) = "bond100")] at this
    exact ⟨hb, hn, by rw [hcreate, hb]⟩

theorem c7_bundle_naming_amended_witness :
    nameTaken ["bond0"] "bond1" = false ∧
    bundleName ["bond0"] = "bond1" := by
  refine ⟨by decide, ?_⟩
  exact (c7_bundle_naming_amended ["bond0"]).1 1 (by decide) (by decide)
    (fun j hj => by
      have hj0 : j = 0 := by omega
      subst hj0
      decide)

/-! Embedding of `ConfigurePNI.run` (add_pni.py lines 313-563). -/

/-- Exception propagation: run the continuation on success, propagate
the raised exception otherwise. -/
def ebind {α β : Type} (e : Except RunErr α) (f : α → Except RunErr β) :
    Except RunErr β :=
  match e with
  | .error err => .error err
  | .ok x => f x

theorem ebind_ok {α β : Type} (x : α) (f : α → Except RunErr β) :
    ebind (.ok x) f = f x := rfl

theorem ebind_error {α β : Type} (e : RunErr) (f : α → Except RunErr β) :
    ebind (.error e) f = .error e := rfl

theorem ebind_ok_inv {α β : Type} {e : Except RunErr α}
    {f : α → Except RunErr β} {y : β} (h : ebind e f = .ok y) :
    ∃ x, e = .ok x ∧ f x = .ok y := by
  cases e with
  | error err => exact absurd h (by simp [ebind])
  | ok x => exact ⟨x, rfl, h⟩

/-- An interface as `ConfigurePNI.run` reads and writes it: id, device
name, interface name, 802.1Q mode, interface type, description, tags,
assigned-address count, link peers and untagged VLAN (vid, site). -/
structure PIface where
  pid : Nat
  devName : String
  name : String
  mode : String
  itype : String
  descr : String
  tags : List String
  countIps : Nat
  links : List LinkEnd
  uvlan : Option (Nat × String)
  deriving DecidableEq

/-- An IP address value (netaddr `IPNetwork`): family, host value, mask
length. -/
structure IpIn where
  fam : Nat
  addr : Nat
  plen : Nat
  deriving DecidableEq

/-- A persisted IPAddress record with its assigned object. -/
structure AddrRec where
  fam : Nat
  addr : Nat
  plen : Nat
  assignedTo : Option Nat
  deriving DecidableEq

/-- The store as `ConfigurePNI.run` uses it: devices (name, site),
interfaces, VLANs (vid, site), the prefixes carrying the
autogeneration role in query order (family, available set), address
records, tag names, and presence of the fixed Role and CircuitType
rows. -/
structure PniDb where
  devs : List (String × String)
  ifaces : List PIface
  vlans : List (Nat × String)
  pools : List (Nat × List Cidr)
  addrs : List AddrRec
  tags : List String
  roleExists : Bool
  ctypeExists : Bool
  deriving DecidableEq

/-- The target parameter: an interface object reference (form path) or
the device-name/interface-name string pair (API path). -/
inductive PniTarget where
  | byObj (pid : Nat)
  | byNames (dev : String) (ifname : String)
  deriving DecidableEq

/-- Input data of `ConfigurePNI.run` (front-end fields; on the string
path `my_ipv4`/`my_ipv6` have already been parsed into `IPNetwork`
values, and a blank `virtual_circuit_id` arrives as `""` via
`data['virtual_circuit_id'] or ""`). -/
structure PniData where
  target : PniTarget
  vlanId : Option Nat
  peerAsn : Nat
  vcid : String
  autogen : Bool
  myIpv4 : Option IpIn
  myIpv6 : Option IpIn
  deriving DecidableEq

/-- Target resolution (lines 386-403): on the string path
`Device.objects.get(name=..)` then
`Interface.objects.get(device=.., name=..)`, a miss raising
`ObjectDoesNotExist`, caught as a `CancelScript`; on the object path the
reference is used directly. -/
def resolveTarget (db : PniDb) : PniTarget → Except RunErr PIface
  | .byNames dev ifn =>
      match db.devs.find? (fun p => decide (p.1 = dev)) with
      | none =>
          .error (.cancel ("Interface " ++ dev ++ ":" ++ ifn ++ " not found or not unique"))
      | some _ =>
          match db.ifaces.find?
              (fun i => decide (i.devName = dev) && decide (i.name = ifn)) with
          | none =>
              .error (.cancel ("Interface " ++ dev ++ ":" ++ ifn ++ " not found or not unique"))
          | some i => .ok i
  | .byObj pid =>
      match db.ifaces.find? (fun i => decide (i.pid = pid)) with
      | none => .error (.fault "stale interface reference")
      | some i => .ok i

/-- `site = interface.device.site` (line 405-406). -/
def siteOf (db : PniDb) (devName : String) : Except RunErr String :=
  match db.devs.find? (fun p => decide (p.1 = devName)) with
  | none => .error (.fault "device missing")
  | some p => .ok p.2

/-- The store side of `lazy_load_tag`: record the name if absent. -/
def addTagStore (db : PniDb) (n : String) : PniDb :=
  if db.tags.any (fun s => decide (s = n)) then db
  else { db with tags := db.tags ++ [n] }

/-- `interface.tags.add(..)`: idempotent tag addition on an interface. -/
def addIfaceTag (n : String) (i : PIface) : PIface :=
  if i.tags.any (fun s => decide (s = n)) then i
  else { i with tags := i.tags ++ [n] }

/-- Apply an update to every stored interface with the given id. -/
def updIface (db : PniDb) (pid : Nat) (f : PIface → PIface) : PniDb :=
  { db with ifaces :=
      db.ifaces.map (fun i => if decide (i.pid = pid) = true then f i else i) }

/-- A fresh id for a newly created interface row. -/
def freshPid (db : PniDb) : Nat :=
  db.ifaces.foldr (fun i m => max i.pid m) 0 + 1

/-- `vlan_name = f'{interface.name}.{int(vlan_id)}'` (line 431). -/
def vlanName (iface : PIface) (v : Nat) : String :=
  iface.name ++ "." ++ toString v

/-- The VLAN sub-port branch (lines 421-472): range check, Q-in-Q
rejection, then the sub-port lookup
`Interface.objects.filter(name=vlan_name).first()` — by name only, with
no device filter. A hit is adopted as the new target; otherwise the
VLAN object is found or created site-scoped and a new access-mode
sub-port is created on the requested port's device. Reading
`interface.untagged_vlan.vid` faults when the adopted interface has no
untagged VLAN. A non-blank virtual circuit id adds a semantic
`pni:vcid` tag to the target. Returns the updated store, the target and
the description. -/
def vlanBranch (db : PniDb) (iface : PIface) (devName site : String)
    (v : Nat) (asn vcid : String) :
    Except RunErr (PniDb × PIface × String) :=
  if ¬ (1 ≤ v ∧ v < 4095) then
    .error (.cancel "vlan_id must be an integer between 1 and 4094")
  else if iface.mode = "access" then
    .error (.cancel ("Cannot assign a VLAN to interface " ++ iface.name))
  else
    let nm := vlanName iface v
    let found := db.ifaces.find? (fun i => decide (i.name = nm))
    let db1 :=
      match found with
      | some _ => db
      | none =>
          let dbv :=
            if db.vlans.any (fun p => decide (p.1 = v) && decide (p.2 = site)) then db
            else { db with vlans := db.vlans ++ [(v, site)] }
          { dbv with ifaces := dbv.ifaces ++
              [⟨freshPid dbv, devName, nm, "access", "vlan", "", [], 0, [], some (v, site)⟩] }
    let target :=
      match found with
      | some f => f
      | none =>
          ⟨freshPid (if db.vlans.any (fun p => decide (p.1 = v) && decide (p.2 = site)) then db
            else { db with vlans := db.vlans ++ [(v, site)] }),
            devName, nm, "access", "vlan", "", [], 0, [], some (v, site)⟩
    match target.uvlan with
    | none => .error (.fault "AttributeError: untagged_vlan is None")
    | some _ =>
        let desc := "[T=pni][peer=" ++ asn ++ "][VCID: " ++ vcid ++ "]"
        if vcid ≠ "" then
          .ok (updIface (addTagStore db1 ("pni:vcid=" ++ vcid)) target.pid
                (addIfaceTag ("pni:vcid=" ++ vcid)), target, desc)
        else .ok (db1, target, desc)

/-- The non-VLAN branch (lines 474-488): reject a target that already
carries addresses, then build the description for a LAG or for a port
wired to exactly one termination of a PNI-type circuit. -/
def elseBranch (iface : PIface) (asn : String) : Except RunErr String :=
  if 0 < iface.countIps then
    .error (.cancel (iface.name ++ " already has IPs assigned to it"))
  else if iface.itype = "lag" then .ok ("[T=pni][peer=" ++ asn ++ "]")
  else
    match iface.links with
    | [LinkEnd.circTerm ct cid prov] =>
        if ct = PNICircuitTypeSlug then
          .ok ("[T=pni][peer=" ++ asn ++ "][" ++ prov ++ "][CID: " ++ cid ++ "]")
        else
          .error (.cancel ("Non-VLAN/LAG Interface " ++ iface.name ++ " not wired to a valid circuit"))
    | _ =>
        .error (.cancel ("Non-VLAN/LAG Interface " ++ iface.name ++ " not wired to a valid circuit"))

/-- One autogen address pick (lines 515-523): the same break-style scan
over `iter_cidrs()` as the renumber allocator, but taking `cidr[0]`
as-is (no alignment, no removal, no availability check). -/
def autogenPick (w plen fam : Nat) (avail : List Cidr) : Except RunErr IpIn :=
  match iterBreakSelect (fun c => decide (c.len < w)) avail with
  | none => .error (.fault "NameError")
  | some c => .ok ⟨fam, c.base, plen⟩

/-- Address selection (lines 501-530): autogen picks the first v4 and
first v6 prefix of the autogeneration role and carves `/31`, `/127`
starts; otherwise both explicit addresses must be present and of the
right families. -/
def pickIps (db : PniDb) (d : PniData) : Except RunErr (IpIn × IpIn) :=
  if d.autogen then
    match db.pools.find? (fun p => decide (p.1 = 4)),
        db.pools.find? (fun p => decide (p.1 = 6)) with
    | some p4, some p6 =>
        ebind (autogenPick 32 31 4 p4.2) fun a4 =>
        ebind (autogenPick 128 127 6 p6.2) fun a6 => .ok (a4, a6)
    | some _, none => .error (.cancel "Autogen v4 or v6 prefix not found")
    | none, _ => .error (.cancel "Autogen v4 or v6 prefix not found")
  else
    match d.myIpv4, d.myIpv6 with
    | some m4, some m6 =>
        if m4.fam = 4 ∧ m6.fam = 6 then .ok (m4, m6)
        else .error (.cancel "Invalid family for one or both IP assignments")
    | some _, none =>
        .error (.cancel "Either autogen must be selected or IP fields must be completed")
    | none, _ =>
        .error (.cancel "Either autogen must be selected or IP fields must be completed")

/-- Binding one address (lines 532-547): any existing record with the
same address that is assigned elsewhere cancels; otherwise a new active
record is created and assigned to the target. -/
def assignAddr (db : PniDb) (pid : Nat) (a : IpIn) : Except RunErr PniDb :=
  if (db.addrs.filter (fun r =>
        decide (r.fam = a.fam) && decide (r.addr = a.addr) &&
        decide (r.plen = a.plen))).any
      (fun r => !(decide (r.assignedTo = none))) then
    .error (.cancel "address is already assigned")
  else
    .ok { db with addrs := db.addrs ++ [⟨a.fam, a.addr, a.plen, some pid⟩] }

/-- `ConfigurePNI.run` (lines 382-563): resolve the target, load the
fixed Role and CircuitType rows (faults when missing), get-or-create
the `pni:configured`, `l2ptp` and semantic peer-ASN tags, take the VLAN
branch when a non-zero `vlan_id` is supplied (Python truthiness: `0`
and absence both fall through to the non-VLAN branch), set the
description and the three tags on the (possibly adopted) target, pick
the two addresses and bind them. Returns the updated store, the
target's id and the bound addresses. -/
def configurePni (db : PniDb) (d : PniData) :
    Except RunErr (PniDb × Nat × List IpIn) :=
  ebind (resolveTarget db d.target) fun iface =>
  ebind (siteOf db iface.devName) fun site =>
  if db.roleExists = false then .error (.fault "Role does not exist")
  else if db.ctypeExists = false then .error (.fault "CircuitType does not exist")
  else
    let asn := toString d.peerAsn
    let db0 := addTagStore (addTagStore (addTagStore db "pni:configured") "l2ptp")
      ("pni:asn=" ++ asn)
    let branch :=
      match d.vlanId with
      | some v =>
          if v = 0 then
            ebind (elseBranch iface asn) fun desc => .ok (db0, iface, desc)
          else vlanBranch db0 iface iface.devName site v asn d.vcid
      | none =>
          ebind (elseBranch iface asn) fun desc => .ok (db0, iface, desc)
    ebind branch fun r =>
    let db1 := r.1
    let target := r.2.1
    let desc := r.2.2
    let db5 := updIface (updIface (updIface (updIface db1 target.pid
      (fun i => { i with descr := desc })) target.pid (addIfaceTag "l2ptp"))
      target.pid (addIfaceTag "pni:configured")) target.pid
      (addIfaceTag ("pni:asn=" ++ asn))
    ebind (pickIps db5 d) fun a =>
    ebind (assignAddr db5 target.pid a.1) fun db6 =>
    ebind (assignAddr db6 target.pid a.2) fun db7 =>
    .ok (db7, target.pid, [a.1, a.2])

/-- The `cancellable` transaction discipline around `ConfigurePNI.run`:
on any raised error the transaction is rolled back and the store is
left as it was. -/
def runConfigurePni (db : PniDb) (d : PniData) :
    PniDb × Except RunErr (Nat × List IpIn) :=
  match configurePni db d with
  | .ok (db', pid, addrs) => (db', .ok (pid, addrs))
  | .error e => (db, .error e)

theorem addTagStore_ifaces (db : PniDb) (n : String) :
    (addTagStore db n).ifaces = db.ifaces := by
  unfold addTagStore
  split <;> rfl

theorem addTagStore_addrs (db : PniDb) (n : String) :
    (addTagStore db n).addrs = db.addrs := by
  unfold addTagStore
  split <;> rfl

theorem updIface_addrs (db : PniDb) (p : Nat) (g : PIface → PIface) :
    (updIface db p g).addrs = db.addrs := rfl

theorem updIface_mem {db : PniDb} {p : Nat} {g : PIface → PIface} {j : PIface}
    (hj : j ∈ (updIface db p g).ifaces) :
    ∃ j0 ∈ db.ifaces,
      j = (if decide (j0.pid = p) = true then g j0 else j0) := by
  unfold updIface at hj
  rw [List.mem_map] at hj
  obtain ⟨j0, hj0, hEq⟩ := hj
  exact ⟨j0, hj0, hEq.symm⟩

theorem addIfaceTag_pid (n : String) (i : PIface) :
    (addIfaceTag n i).pid = i.pid := by
  unfold addIfaceTag
  split <;> rfl

theorem addIfaceTag_descr (n : String) (i : PIface) :
    (addIfaceTag n i).descr = i.descr := by
  unfold addIfaceTag
  split <;> rfl

theorem addIfaceTag_mem_self (n : String) (i : PIface) :
    n ∈ (addIfaceTag n i).tags := by
  unfold addIfaceTag
  split
  · next h =>
    rw [List.any_eq_true] at h
    obtain ⟨s, hs, hsn⟩ := h
    rw [decide_eq_true_iff] at hsn
    exact hsn ▸ hs
  · simp

theorem addIfaceTag_mem_mono {m : String} (n : String) {i : PIface}
    (hm : m ∈ i.tags) : m ∈ (addIfaceTag n i).tags := by
  unfold addIfaceTag
  split
  · exact hm
  · simp [hm]

theorem updIface_comp {db : PniDb} {p : Nat} {g h : PIface → PIface}
    (hg : ∀ i, (g i).pid = i.pid) :
    updIface (updIface db p g) p h = updIface db p (fun i => h (g i)) := by
  unfold updIface
  congr 1
  rw [List.map_map]
  induction db.ifaces with
  | nil => rfl
  | cons a l ih =>
    rw [List.map_cons, List.map_cons, ih]
    congr 1
    by_cases hc : a.pid = p
    · simp [hc, hg a]
    · simp [hc]

theorem assignAddr_ok_inv {db : PniDb} {pid : Nat} {a : IpIn} {db' : PniDb}
    (h : assignAddr db pid a = .ok db') :
    db' = { db with addrs := db.addrs ++ [⟨a.fam, a.addr, a.plen, some pid⟩] } := by
  unfold assignAddr at h
  split at h
  · exact absurd h (by simp)
  · rw [Except.ok.injEq] at h
    exact h.symm

/-- The VLAN branch on a name hit: whatever device the hit lives on, it
is adopted as the target, the store is only extended by the optional
`pni:vcid` tag, and the VLAN-format description is produced. -/
theorem vlanBranch_found {db : PniDb} {iface f : PIface}
    {devName site : String} {v : Nat} {asn vcid : String} {uv : Nat × String}
    (hrange : 1 ≤ v ∧ v < 4095) (hmode : ¬ iface.mode = "access")
    (hfind : db.ifaces.find? (fun i => decide (i.name = vlanName iface v)) = some f)
    (huv : f.uvlan = some uv) :
    vlanBranch db iface devName site v asn vcid =
      .ok ((if vcid ≠ "" then
              updIface (addTagStore db ("pni:vcid=" ++ vcid)) f.pid
                (addIfaceTag ("pni:vcid=" ++ vcid))
            else db), f, "[T=pni][peer=" ++ asn ++ "][VCID: " ++ vcid ++ "]") := by
  unfold vlanBranch
  rw [if_neg (not_not_intro hrange), if_neg hmode]
  dsimp only
  rw [hfind]
  dsimp only
  rw [huv]
  by_cases hv : vcid ≠ ""
  · rw [if_pos hv, if_pos hv]
  · rw [if_neg hv, if_neg hv]

/-- Membership in the four description/tag updates that `ConfigurePNI`
applies to the resolved target. -/
theorem updIface4_mem {db1 : PniDb} {p : Nat} {desc asn : String} {j : PIface}
    (hj : j ∈ (updIface (updIface (updIface (updIface db1 p
        (fun i => { i with descr := desc })) p (addIfaceTag "l2ptp")) p
        (addIfaceTag "pni:configured")) p
        (addIfaceTag ("pni:asn=" ++ asn))).ifaces) :
    (j.pid = p ∧ j.descr = desc ∧ "l2ptp" ∈ j.tags ∧ "pni:configured" ∈ j.tags)
    ∨ (¬ j.pid = p ∧ j ∈ db1.ifaces) := by
  obtain ⟨j3, hj3, he4⟩ := updIface_mem hj
  obtain ⟨j2, hj2, he3⟩ := updIface_mem hj3
  obtain ⟨j1, hj1, he2⟩ := updIface_mem hj2
  obtain ⟨j0, hj0, he1⟩ := updIface_mem hj1
  by_cases hc : decide (j0.pid = p) = true
  · left
    rw [if_pos hc] at he1
    have hc1 : decide (j1.pid = p) = true := by rw [he1]; exact hc
    rw [if_pos hc1] at he2
    have hc2 : decide (j2.pid = p) = true := by
      rw [he2, addIfaceTag_pid]
      exact hc1
    rw [if_pos hc2] at he3
    have hc3 : decide (j3.pid = p) = true := by
      rw [he3, addIfaceTag_pid]
      exact hc2
    rw [if_pos hc3] at he4
    refine ⟨?_, ?_, ?_, ?_⟩
    · rw [he4, addIfaceTag_pid, he3, addIfaceTag_pid, he2, addIfaceTag_pid, he1]
      exact of_decide_eq_true hc
    · rw [he4, addIfaceTag_descr, he3, addIfaceTag_descr, he2,
        addIfaceTag_descr, he1]
    · rw [he4]
      refine addIfaceTag_mem_mono _ ?_
      rw [he3]
      refine addIfaceTag_mem_mono _ ?_
      rw [he2]
      exact addIfaceTag_mem_self _ _
    · rw [he4]
      refine addIfaceTag_mem_mono _ ?_
      rw [he3]
      exact addIfaceTag_mem_self _ _
  · right
    rw [if_neg hc] at he1
    have hc1 : ¬ decide (j1.pid = p) = true := by rw [he1]; exact hc
    rw [if_neg hc1] at he2
    have hc2 : ¬ decide (j2.pid = p) = true := by rw [he2]; exact hc1
    rw [if_neg hc2] at he3
    have hc3 : ¬ decide (j3.pid = p) = true := by rw [he3]; exact hc2
    rw [if_neg hc3] at he4
    subst he4
    subst he3
    subst he2
    subst he1
    exact ⟨by simpa using hc, hj0⟩

theorem vcidDb_ifaces_ne {db : PniDb} {vcid : String} {p : Nat} {j : PIface}
    (hj : j ∈ (if vcid ≠ "" then
        updIface (addTagStore db ("pni:vcid=" ++ vcid)) p
          (addIfaceTag ("pni:vcid=" ++ vcid))
      else db).ifaces)
    (hne : ¬ j.pid = p) : j ∈ db.ifaces := by
  split at hj
  · obtain ⟨j0, hj0, he⟩ := updIface_mem hj
    rw [addTagStore_ifaces] at hj0
    by_cases hc : decide (j0.pid = p) = true
    · exfalso
      apply hne
      rw [if_pos hc] at he
      rw [he, addIfaceTag_pid]
      exact of_decide_eq_true hc
    · rw [if_neg hc] at he
      exact he ▸ hj0
  · exact hj

theorem vcidDb_addrs {db : PniDb} {vcid : String} {p : Nat} :
    (if vcid ≠ "" then
        updIface (addTagStore db ("pni:vcid=" ++ vcid)) p
          (addIfaceTag ("pni:vcid=" ++ vcid))
      else db).addrs = db.addrs := by
  split
  · rw [updIface_addrs, addTagStore_addrs]
  · rfl

/-- Cross-device store: the requested port `eth0` lives on `r1`, while a
different device `r2` already has an interface named `eth0.100` that
carries one assigned address. -/
def pniIf1 : PIface :=
  ⟨1, "r1", "eth0", "tagged", "phys", "", ["pni:circuit"], 0, [], none⟩

def pniIf2 : PIface :=
  ⟨2, "r2", "eth0.100", "access", "vlan", "", [], 1, [], some (100, "site2")⟩

def pniDbCross : PniDb :=
  ⟨[("r1", "site1"), ("r2", "site2")], [pniIf1, pniIf2], [], [],
    [⟨4, ipv4 192 0 2 0, 31, some 2⟩], [], true, true⟩

def pniDataCross : PniData :=
  ⟨.byObj 1, some 100, 65001, "", false,
    some ⟨4, ipv4 198 51 100 0, 31⟩, some ⟨6, ip6db8 + 2, 127⟩⟩

/-- C8 counterexample: the claim says a target port that already has
address records is always rejected with a cancellation, with no
override path even through the VLAN sub-port resolution branch. Against
the cross-device store, requesting `eth0` with VLAN id 100 adopts the
existing interface `eth0.100` — which already carries one assigned
address — and the run succeeds, binding two further addresses to it
(three records assigned to port 2 afterwards). -/
theorem c8_already_assigned_cex :
    ((pniDbCross.ifaces.find? (fun i => decide (i.pid = 2))).map
        (fun i => i.countIps) = some 1)
    ∧ ((configurePni pniDbCross pniDataCross).toOption.map
        (fun r => r.2.1) = some 2)
    ∧ ((configurePni pniDbCross pniDataCross).toOption.map
        (fun r => (r.1.addrs.filter
          (fun a => decide (a.assignedTo = some 2))).length) = some 3) := by
  exact ⟨rfl, rfl, rfl⟩

/-- C8 (amended): when the target port is used directly (no VLAN id
supplied, or a falsy `0`), a port that already has one or more address
records is rejected with the `already has IPs assigned to it`
cancellation and the store is left unchanged after rollback. The VLAN
sub-port resolution branch, however, performs no such check: an adopted
sub-port with existing addresses receives the new addresses (see the
counterexample). -/
theorem c8_already_assigned_amended (db : PniDb) (d : PniData)
    (iface : PIface) (site : String)
    (hres : resolveTarget db d.target = .ok iface)
    (hsite : siteOf db iface.devName = .ok site)
    (hrole : db.roleExists = true) (hctype : db.ctypeExists = true)
    (hvlan : d.vlanId = none ∨ d.vlanId = some 0)
    (hips : 0 < iface.countIps) :
    configurePni db d
      = .error (.cancel (iface.name ++ " already has IPs assigned to it"))
    ∧ (runConfigurePni db d).1 = db := by
  have hbr : elseBranch iface (toString d.peerAsn)
      = .error (.cancel (iface.name ++ " already has IPs assigned to it")) := by
    unfold elseBranch
    rw [if_pos hips]
  have hcfg : configurePni db d
      = .error (.cancel (iface.name ++ " already has IPs assigned to it")) := by
    unfold configurePni
    rw [hres]
    rw [ebind_ok]
    show ebind (siteOf db iface.devName) _ = _
    rw [hsite, ebind_ok]
    show (if db.roleExists = false then _ else _) = _
    rw [if_neg (by simp [hrole]), if_neg (by simp [hctype])]
    rcases hvlan with hv | hv
    · show ebind (match d.vlanId with
        | some v =>
            if v = 0 then
              ebind (elseBranch iface (toString d.peerAsn)) fun desc =>
                .ok (addTagStore (addTagStore (addTagStore db "pni:configured")
                  "l2ptp") ("pni:asn=" ++ toString d.peerAsn), iface, desc)
            else vlanBranch (addTagStore (addTagStore (addTagStore db
              "pni:configured") "l2ptp") ("pni:asn=" ++ toString d.peerAsn))
              iface iface.devName site v (toString d.peerAsn) d.vcid
        | none =>
            ebind (elseBranch iface (toString d.peerAsn)) fun desc =>
              .ok (addTagStore (addTagStore (addTagStore db "pni:configured")
                "l2ptp") ("pni:asn=" ++ toString d.peerAsn), iface, desc)) _ = _
      rw [hv]
      show ebind (ebind (elseBranch iface (toString d.peerAsn)) _) _ = _
      rw [hbr, ebind_error, ebind_error]
    · show ebind (match d.vlanId with
        | some v =>
            if v = 0 then
              ebind (elseBranch iface (toString d.peerAsn)) fun desc =>
                .ok (addTagStore (addTagStore (addTagStore db "pni:configured")
                  "l2ptp") ("pni:asn=" ++ toString d.peerAsn), iface, desc)
            else vlanBranch (addTagStore (addTagStore (addTagStore db
              "pni:configured") "l2ptp") ("pni:asn=" ++ toString d.peerAsn))
              iface iface.devName site v (toString d.peerAsn) d.vcid
        | none =>
            ebind (elseBranch iface (toString d.peerAsn)) fun desc =>
              .ok (addTagStore (addTagStore (addTagStore db "pni:configured")
                "l2ptp") ("pni:asn=" ++ toString d.peerAsn), iface, desc)) _ = _
      rw [hv]
      show ebind (if (0 : Nat) = 0 then
          ebind (elseBranch iface (toString d.peerAsn)) _
        else _) _ = _
      rw [if_pos rfl]
      show ebind (ebind (elseBranch iface (toString d.peerAsn)) _) _ = _
      rw [hbr, ebind_error, ebind_error]
  refine ⟨hcfg, ?_⟩
  unfold runConfigurePni
  rw [hcfg]

def pniIf3 : PIface :=
  ⟨1, "r1", "eth1", "", "phys", "", ["pni:circuit"], 1,
    [LinkEnd.circTerm PNICircuitTypeSlug "CID1" "AcmeNet"], none⟩

def pniDbPlain : PniDb :=
  ⟨[("r1", "site1")], [pniIf3], [], [],
    [⟨4, ipv4 192 0 2 4, 31, some 1⟩], [], true, true⟩

def pniDataPlain : PniData :=
  ⟨.byObj 1, none, 65001, "", false,
    some ⟨4, ipv4 198 51 100 0, 31⟩, some ⟨6, ip6db8 + 2, 127⟩⟩

theorem c8_already_assigned_amended_witness :
    configurePni pniDbPlain pniDataPlain
      = .error (.cancel ("eth1" ++ " already has IPs assigned to it"))
    ∧ (runConfigurePni pniDbPlain pniDataPlain).1 = pniDbPlain := by
  exact c8_already_assigned_amended pniDbPlain pniDataPlain pniIf3 "site1"
    rfl rfl rfl rfl (Or.inl rfl) (by decide)

/-- C10: in VLAN sub-port resolution, the lookup for an existing
sub-port named `<port>.<vlan-id>` matches by interface name alone with
no restriction to the target device — the `f` below is only required to
be the first store interface with that name. Whenever the run succeeds,
`f` has been adopted as the target: the returned port id is `f`'s, all
newly bound address records are assigned to `f`, the description and
labels land on `f`, and (when `f` is a different port) the requested
port is left untouched. -/
theorem c10_vlan_lookup_adopts_by_name (db : PniDb) (d : PniData)
    (iface f : PIface) (site : String) (v : Nat) (uv : Nat × String)
    (hres : resolveTarget db d.target = .ok iface)
    (hsite : siteOf db iface.devName = .ok site)
    (hrole : db.roleExists = true) (hctype : db.ctypeExists = true)
    (hv : d.vlanId = some v) (hv0 : ¬ v = 0)
    (hrange : 1 ≤ v ∧ v < 4095) (hmode : ¬ iface.mode = "access")
    (hfind : db.ifaces.find? (fun i => decide (i.name = vlanName iface v))
      = some f)
    (huv : f.uvlan = some uv) :
    ∀ db' pid addrs, configurePni db d = .ok (db', pid, addrs) →
      pid = f.pid
      ∧ (∀ a ∈ db'.addrs, a ∉ db.addrs → a.assignedTo = some f.pid)
      ∧ (∀ j ∈ db'.ifaces, j.pid = f.pid →
          j.descr = "[T=pni][peer=" ++ toString d.peerAsn ++ "][VCID: "
            ++ d.vcid ++ "]"
          ∧ "l2ptp" ∈ j.tags ∧ "pni:configured" ∈ j.tags)
      ∧ (¬ f.pid = iface.pid →
          ∀ j ∈ db'.ifaces, j.pid = iface.pid → j ∈ db.ifaces) := by
  intro db' pid addrs hok
  have hdb0if : (addTagStore (addTagStore (addTagStore db "pni:configured")
      "l2ptp") ("pni:asn=" ++ toString d.peerAsn)).ifaces = db.ifaces := by
    rw [addTagStore_ifaces, addTagStore_ifaces, addTagStore_ifaces]
  have hbr := @vlanBranch_found (addTagStore (addTagStore (addTagStore db
      "pni:configured") "l2ptp") ("pni:asn=" ++ toString d.peerAsn))
    iface f iface.devName site v (toString d.peerAsn) d.vcid uv
    hrange hmode (by rw [hdb0if]; exact hfind) huv
  unfold configurePni at hok
  rw [hres, ebind_ok] at hok
  rw [show ebind (siteOf db iface.devName) = ebind (Except.ok site) from by
    rw [hsite]] at hok
  rw [ebind_ok] at hok
  rw [if_neg (by simp [hrole]), if_neg (by simp [hctype])] at hok
  rw [hv] at hok
  dsimp only at hok
  rw [if_neg hv0] at hok
  rw [hbr, ebind_ok] at hok
  dsimp only at hok
  obtain ⟨a, hpick, hok2⟩ := ebind_ok_inv hok
  obtain ⟨db6, hass1, hok3⟩ := ebind_ok_inv hok2
  obtain ⟨db7, hass2, hok4⟩ := ebind_ok_inv hok3
  rw [Except.ok.injEq, Prod.mk.injEq, Prod.mk.injEq] at hok4
  obtain ⟨hdb', hpid, haddrs⟩ := hok4
  have hdb6 := assignAddr_ok_inv hass1
  have hdb7 := assignAddr_ok_inv hass2
  refine ⟨hpid.symm, ?_, ?_, ?_⟩
  · intro a' ha' hnot
    rw [← hdb', hdb7, hdb6] at ha'
    simp only [updIface_addrs] at ha'
    rw [vcidDb_addrs, addTagStore_addrs, addTagStore_addrs,
      addTagStore_addrs] at ha'
    simp only [List.append_assoc, List.mem_append] at ha'
    rcases ha' with ha' | ha'
    · exact absurd ha' hnot
    · simp only [List.mem_append, List.mem_singleton] at ha'
      rcases ha' with ha' | ha' <;> simp [ha']
  · intro j hj hjp
    rw [← hdb', hdb7, hdb6] at hj
    have hj5 : j ∈ (updIface (updIface (updIface (updIface
        (if d.vcid ≠ "" then
          updIface (addTagStore (addTagStore (addTagStore (addTagStore db
            "pni:configured") "l2ptp") ("pni:asn=" ++ toString d.peerAsn))
            ("pni:vcid=" ++ d.vcid)) f.pid (addIfaceTag ("pni:vcid=" ++ d.vcid))
        else addTagStore (addTagStore (addTagStore db "pni:configured")
          "l2ptp") ("pni:asn=" ++ toString d.peerAsn)) f.pid
        (fun i => { i with descr := "[T=pni][peer=" ++ toString d.peerAsn
          ++ "][VCID: " ++ d.vcid ++ "]" })) f.pid (addIfaceTag "l2ptp")) f.pid
        (addIfaceTag "pni:configured")) f.pid
        (addIfaceTag ("pni:asn=" ++ toString d.peerAsn))).ifaces := hj
    rcases updIface4_mem hj5 with ⟨_, hd, ht1, ht2⟩ | ⟨hne, _⟩
    · exact ⟨hd, ht1, ht2⟩
    · exact absurd hjp hne
  · intro hfne j hj hjp
    rw [← hdb', hdb7, hdb6] at hj
    have hj5 : j ∈ (updIface (updIface (updIface (updIface
        (if d.vcid ≠ "" then
          updIface (addTagStore (addTagStore (addTagStore (addTagStore db
            "pni:configured") "l2ptp") ("pni:asn=" ++ toString d.peerAsn))
            ("pni:vcid=" ++ d.vcid)) f.pid (addIfaceTag ("pni:vcid=" ++ d.vcid))
        else addTagStore (addTagStore (addTagStore db "pni:configured")
          "l2ptp") ("pni:asn=" ++ toString d.peerAsn)) f.pid
        (fun i => { i with descr := "[T=pni][peer=" ++ toString d.peerAsn
          ++ "][VCID: " ++ d.vcid ++ "]" })) f.pid (addIfaceTag "l2ptp")) f.pid
        (addIfaceTag "pni:configured")) f.pid
        (addIfaceTag ("pni:asn=" ++ toString d.peerAsn))).ifaces := hj
    rcases updIface4_mem hj5 with ⟨hp, _, _, _⟩ | ⟨hne, hj1⟩
    · exact absurd (hp.symm.trans hjp) hfne
    · have := vcidDb_ifaces_ne hj1 hne
      rwa [hdb0if] at this

theorem c10_vlan_lookup_adopts_by_name_witness :
    (pniDbCross.ifaces.find? (fun i => decide (i.name = vlanName pniIf1 100))
        = some pniIf2)
    ∧ (pniIf1.devName = "r1" ∧ pniIf2.devName = "r2")
    ∧ ((configurePni pniDbCross pniDataCross).toOption.map (fun r => r.2.1)
        = some pniIf2.pid) := by
  refine ⟨rfl, ⟨rfl, rfl⟩, ?_⟩
  cases hok : configurePni pniDbCross pniDataCross with
  | error e =>
      have h2 : (configurePni pniDbCross pniDataCross).toOption.map
          (fun r => r.2.1) = some 2 := rfl
      rw [hok] at h2
      exact absurd h2 (by simp [Except.toOption])
  | ok r =>
      obtain ⟨db', pid, addrs⟩ := r
      have h := c10_vlan_lookup_adopts_by_name pniDbCross pniDataCross
        pniIf1 pniIf2 "site1" 100 (100, "site2") rfl rfl rfl rfl rfl
        (by decide) (by decide) (by decide) rfl rfl db' pid addrs hok
      simp [Except.toOption, h.1]

/- ================================================================
   renumber.py: GenerateNew.run / PruneIPs.run
   ================================================================ -/

/-- A NetBox interface as `GenerateNew.run` (renumber.py) uses it: id,
device name, interface name, tag names, and the endpoint ids
(`interface_a.id`, `interface_b.id`) of its virtual link, if any. -/
structure RIface where
  rid : Nat
  devName : String
  name : String
  tags : List String
  vlink : Option (Nat × Nat)
  deriving DecidableEq

/-- An `ipam.IPAddress` record: numeric address, mask length, assigned
interface id, tag names. -/
structure RRec where
  addr : Nat
  plen : Nat
  ifId : Option Nat
  tags : List String
  deriving DecidableEq

/-- Django `obj.tags.add(t)`: tag sets never duplicate an entry. -/
def addTagR (r : RRec) (t : String) : RRec :=
  if t ∈ r.tags then r else { r with tags := r.tags ++ [t] }

/-- The slice of the NetBox database that `renumber.py` touches:
interfaces, address records, and the names of the existing `Tag`
objects. -/
structure RDb where
  ifaces : List RIface
  recs : List RRec
  tgs : List String
  deriving DecidableEq

/-- Loop state of `GenerateNew.run`: the mutated store plus the two
available sets returned by `get_available_ips()`, the `scanned_ids`
list, the processed (primary id, peer id) pairs (one per execution of
the loop body past the dedup check), and the `updated` flag. -/
structure GenSt where
  ifaces : List RIface
  recs : List RRec
  tgs : List String
  ips4 : List Cidr
  ips6 : List Cidr
  scanned : List Nat
  pairs : List (Nat × Nat)
  updated : Bool
  deriving DecidableEq

/-- Tag classification of renumber.py lines 125-131: `l2ptp` wins, else
`l3ptp`, else the interface is skipped (`continue`). -/
def tagSel (i : RIface) : Option String :=
  if "l2ptp" ∈ i.tags then some "l2ptp"
  else if "l3ptp" ∈ i.tags then some "l3ptp"
  else none

/-- The peer interface id over the virtual link (renumber.py lines
136-139): the other endpoint of the link. The value is only consulted
when `vlink` is present. -/
def peerIdOf (i : RIface) : Nat :=
  match i.vlink with
  | none => 0
  | some l => if l.1 = i.rid then l.2 else l.1

/-- `iface.tags.remove(renumber)` inside `create_ips` (renumber.py line
204), applied to the interface with id `n`. -/
def stripRenumber (ifs : List RIface) (n : Nat) : List RIface :=
  ifs.map (fun x => if x.rid = n
    then { x with tags := x.tags.filter (fun t => decide (t ≠ "renumber")) }
    else x)

/-- State after a skipped loop iteration (`continue` on lines 131, 134,
143): only `scanned_ids` has grown (line 123). -/
def skipSt (st : GenSt) (i : RIface) : GenSt :=
  { st with scanned := st.scanned ++ [i.rid] }

/-- State after a fully processed loop iteration (renumber.py lines
145-210): the two available sets are shrunk by the carved /31 and /127,
every address record of the two interfaces is tagged `prune`, the four
new records (primary v4, primary v6, peer v4, peer v6) are appended with
the ptp tag and `new_ip`, the `renumber` tag is dropped from both
interfaces, and the pair is recorded. -/
def procSt (st : GenSt) (i : RIface) (tg : String) (peer : RIface)
    (a4 b4 : Nat) (s4 : List Cidr) (a6 b6 : Nat) (s6 : List Cidr) : GenSt :=
  { st with
    scanned := st.scanned ++ [i.rid]
    ifaces := stripRenumber (stripRenumber st.ifaces i.rid) peer.rid
    recs := st.recs.map (fun r =>
        if r.ifId = some i.rid ∨ r.ifId = some peer.rid then addTagR r "prune" else r) ++
      [⟨a4, 31, some i.rid, [tg, "new_ip"]⟩, ⟨a6, 127, some i.rid, [tg, "new_ip"]⟩,
       ⟨b4, 31, some peer.rid, [tg, "new_ip"]⟩, ⟨b6, 127, some peer.rid, [tg, "new_ip"]⟩]
    ips4 := s4
    ips6 := s6
    pairs := st.pairs ++ [(i.rid, peer.rid)]
    updated := true }

/-- One iteration of the interface loop of `GenerateNew.run`
(renumber.py lines 120-210) on queryset-snapshot element `i`: append the
id to `scanned_ids`; pick the ptp tag or skip; follow the virtual link
or skip; fetch the peer by id (`Interface.objects.get`, a missing id is
a `DoesNotExist` fault); skip if the peer id is already scanned;
otherwise carve the /31 and /127 pairs (an empty set leaves the loop
variable unbound: a `NameError` fault at the `copy(...)` that follows)
and apply the store updates of `procSt`. Tag membership of `i` is read
off the snapshot: the loop body only ever removes the `renumber` tag,
which it never re-reads. -/
def genStep (st : GenSt) (i : RIface) : Except RunErr GenSt :=
  match tagSel i with
  | none => .ok (skipSt st i)
  | some tg =>
    match i.vlink with
    | none => .ok (skipSt st i)
    | some _ =>
      match st.ifaces.find? (fun x => decide (x.rid = peerIdOf i)) with
      | none => .error (.fault "Interface matching query does not exist.")
      | some peer =>
        if peer.rid ∈ st.scanned ++ [i.rid] then .ok (skipSt st i)
        else
          match allocStep 32 st.ips4 with
          | none => .error (.fault "NameError: name cidr4 is not defined")
          | some (_, a4, b4, s4) =>
            match allocStep 128 st.ips6 with
            | none => .error (.fault "NameError: name cidr6 is not defined")
            | some (_, a6, b6, s6) =>
              .ok (procSt st i tg peer a4 b4 s4 a6 b6 s6)

/-- The interface loop, left to right over the queryset snapshot. -/
def genLoop : GenSt → List RIface → Except RunErr GenSt
  | st, [] => .ok st
  | st, i :: rest => ebind (genStep st i) (fun st2 => genLoop st2 rest)

/-- `GenerateNew.run` (renumber.py lines 36-221) with the two available
sets already resolved by `get_ips`: load the `renumber` / `l2ptp` /
`l3ptp` tags (a missing one is a `DoesNotExist` fault), get-or-create
the `new_ip` and `prune` tags, loop over the snapshot of interfaces
tagged `renumber`, and cancel when nothing was updated. The YAML `out`
report is not modelled. -/
def genRun (db : RDb) (ips4 ips6 : List Cidr) : Except RunErr GenSt :=
  if "renumber" ∈ db.tgs ∧ "l2ptp" ∈ db.tgs ∧ "l3ptp" ∈ db.tgs then
    let tgs1 := if "new_ip" ∈ db.tgs then db.tgs else db.tgs ++ ["new_ip"]
    let tgs2 := if "prune" ∈ tgs1 then tgs1 else tgs1 ++ ["prune"]
    ebind (genLoop ⟨db.ifaces, db.recs, tgs2, ips4, ips6, [], [], false⟩
        (db.ifaces.filter (fun i => decide ("renumber" ∈ i.tags))))
      (fun st => if st.updated then .ok st
        else .error (.cancel "No eligible interfaces marked for renumbering."))
  else .error (.fault "Tag matching query does not exist.")

/-- `ip.tags.remove(new_ip)` in `PruneIPs.run` (renumber.py line 247). -/
def stripNew (r : RRec) : RRec :=
  { r with tags := r.tags.filter (fun t => decide (t ≠ "new_ip")) }

/-- `PruneIPs.run` (renumber.py lines 233-256): load the `prune` and
`new_ip` tags (a missing one is a `DoesNotExist` fault, the script is
not `cancellable`), delete every record tagged `prune`, then remove the
`new_ip` tag from the records that carry it. -/
def pruneRun (tgs : List String) (recs : List RRec) : Except RunErr (List RRec) :=
  if "prune" ∈ tgs ∧ "new_ip" ∈ tgs then
    .ok ((recs.filter (fun r => decide ("prune" ∉ r.tags))).map stripNew)
  else .error (.fault "Tag matching query does not exist.")

/-- The interface ids touched by a list of processed pairs. -/
def portsOf : List (Nat × Nat) → List Nat
  | [] => []
  | q :: r => q.1 :: q.2 :: portsOf r

/-- A record's cumulated `prune` tagging over a list of processed pairs:
tagged exactly when its interface is a port of one of them. -/
def pruneMark (ps : List (Nat × Nat)) (r : RRec) : RRec :=
  if (portsOf ps).any (fun a => decide (r.ifId = some a)) then addTagR r "prune" else r

/-- Virtual links of `ifs` are proper shared edges at interface `i`: the
link endpoints are two distinct ids, `i` is one of them, and every
interface of `ifs` on an endpoint carries the same link (NetBox stores
one `VirtualLink` row referenced from both ends). -/
def properAt (ifs : List RIface) (i : RIface) : Bool :=
  match i.vlink with
  | none => true
  | some l =>
      (decide (i.rid = l.1) || decide (i.rid = l.2)) && decide (l.1 ≠ l.2) &&
      ifs.all (fun j => !(decide (j.rid = l.1) || decide (j.rid = l.2)) ||
        decide (j.vlink = some l))

/-- Virtual links of `ifs` are proper shared edges everywhere. -/
def properLinks (ifs : List RIface) : Bool := ifs.all (properAt ifs)

/-- Counts occurrences of the unordered pair `(a, b)`. -/
def cntAB (a b : Nat) : Nat × Nat → Bool :=
  fun q => decide (q = (a, b)) || decide (q = (b, a))

theorem addTagR_ifId (r : RRec) (t : String) : (addTagR r t).ifId = r.ifId := by
  unfold addTagR; split <;> rfl

theorem addTagR_mem (r : RRec) (t : String) : t ∈ (addTagR r t).tags := by
  unfold addTagR; split
  · assumption
  · simp

theorem addTagR_mem_inv (r : RRec) (t s : String) (h : s ∈ (addTagR r t).tags) :
    s ∈ r.tags ∨ s = t := by
  unfold addTagR at h; split at h
  · exact Or.inl h
  · simpa using h

theorem pruneMark_ifId (ps : List (Nat × Nat)) (r : RRec) :
    (pruneMark ps r).ifId = r.ifId := by
  unfold pruneMark; split
  · exact addTagR_ifId r "prune"
  · rfl

theorem pruneMark_mem_inv (ps : List (Nat × Nat)) (r : RRec) (s : String)
    (h : s ∈ (pruneMark ps r).tags) : s ∈ r.tags ∨ s = "prune" := by
  unfold pruneMark at h; split at h
  · exact addTagR_mem_inv r "prune" s h
  · exact Or.inl h

theorem portsOf_append (ps qs : List (Nat × Nat)) :
    portsOf (ps ++ qs) = portsOf ps ++ portsOf qs := by
  induction ps with
  | nil => rfl
  | cons q r ih => simp [portsOf, ih]

theorem stripRenumber_rids (ifs : List RIface) (n : Nat) :
    (stripRenumber ifs n).map RIface.rid = ifs.map RIface.rid := by
  unfold stripRenumber
  rw [List.map_map]
  apply List.map_congr_left
  intro x _
  by_cases h : x.rid = n <;> simp [h, Function.comp]

theorem tagSel_values (i : RIface) (tg : String) (h : tagSel i = some tg) :
    tg = "l2ptp" ∨ tg = "l3ptp" := by
  unfold tagSel at h
  split at h
  · exact Or.inl (Option.some.inj h).symm
  · split at h
    · exact Or.inr (Option.some.inj h).symm
    · cases h

theorem peerIdOf_eq (i : RIface) (l : Nat × Nat) (hl : i.vlink = some l) :
    peerIdOf i = if l.1 = i.rid then l.2 else l.1 := by
  unfold peerIdOf; rw [hl]

theorem peerIdOf_cases (i : RIface) (l : Nat × Nat) (hl : i.vlink = some l)
    (h1 : i.rid = l.1 ∨ i.rid = l.2) (h2 : l.1 ≠ l.2) :
    (i.rid = l.1 ∧ peerIdOf i = l.2) ∨ (i.rid = l.2 ∧ peerIdOf i = l.1) := by
  rw [peerIdOf_eq i l hl]
  by_cases hc : l.1 = i.rid
  · left; exact ⟨hc.symm, by simp [hc]⟩
  · have h3 : i.rid = l.2 := by
      rcases h1 with h' | h'
      · exact absurd h'.symm hc
      · exact h'
    right; exact ⟨h3, by simp [hc]⟩

theorem properLinks_spec {ifs : List RIface} (h : properLinks ifs = true) :
    ∀ i ∈ ifs, ∀ l : Nat × Nat, i.vlink = some l →
      (i.rid = l.1 ∨ i.rid = l.2) ∧ l.1 ≠ l.2 ∧
      ∀ j ∈ ifs, (j.rid = l.1 ∨ j.rid = l.2) → j.vlink = some l := by
  intro i hi l hl
  have hp : properAt ifs i = true := List.all_eq_true.mp h i hi
  unfold properAt at hp
  rw [hl] at hp
  simp only [Bool.and_eq_true, Bool.or_eq_true, decide_eq_true_eq,
    List.all_eq_true] at hp
  obtain ⟨⟨hp1, hp2⟩, hp3⟩ := hp
  refine ⟨hp1, hp2, ?_⟩
  intro j hj hj2
  have hb := hp3 j hj
  simp only [Bool.or_eq_true, Bool.not_eq_true', Bool.or_eq_false_iff,
    decide_eq_false_iff_not, decide_eq_true_eq] at hb
  rcases hb with ⟨hn1, hn2⟩ | hyes
  · rcases hj2 with h' | h'
    · exact absurd h' hn1
    · exact absurd h' hn2
  · exact hyes

theorem genStep_ok_cases (st : GenSt) (i : RIface) (st' : GenSt)
    (h : genStep st i = .ok st') :
    (st' = skipSt st i ∧
      (tagSel i = none ∨ i.vlink = none ∨
        ∃ peer, st.ifaces.find? (fun x => decide (x.rid = peerIdOf i)) = some peer ∧
          peer.rid ∈ st.scanned ++ [i.rid])) ∨
    (∃ tg l peer c4 a4 b4 s4 c6 a6 b6 s6,
      tagSel i = some tg ∧ i.vlink = some l ∧
      st.ifaces.find? (fun x => decide (x.rid = peerIdOf i)) = some peer ∧
      peer.rid ∉ st.scanned ++ [i.rid] ∧
      allocStep 32 st.ips4 = some (c4, a4, b4, s4) ∧
      allocStep 128 st.ips6 = some (c6, a6, b6, s6) ∧
      st' = procSt st i tg peer a4 b4 s4 a6 b6 s6) := by
  unfold genStep at h
  cases htg : tagSel i with
  | none =>
      rw [htg] at h; dsimp only at h
      exact Or.inl ⟨(Except.ok.inj h).symm, Or.inl rfl⟩
  | some tg =>
      rw [htg] at h; dsimp only at h
      cases hvl : i.vlink with
      | none =>
          rw [hvl] at h; dsimp only at h
          exact Or.inl ⟨(Except.ok.inj h).symm, Or.inr (Or.inl rfl)⟩
      | some l =>
          rw [hvl] at h; dsimp only at h
          cases hf : st.ifaces.find? (fun x => decide (x.rid = peerIdOf i)) with
          | none => rw [hf] at h; dsimp only at h; cases h
          | some peer =>
              rw [hf] at h; dsimp only at h
              by_cases hm : peer.rid ∈ st.scanned ++ [i.rid]
              · rw [if_pos hm] at h
                exact Or.inl ⟨(Except.ok.inj h).symm, Or.inr (Or.inr ⟨peer, rfl, hm⟩)⟩
              · rw [if_neg hm] at h
                cases h4 : allocStep 32 st.ips4 with
                | none => rw [h4] at h; dsimp only at h; cases h
                | some q4 =>
                    obtain ⟨c4, a4, b4, s4⟩ := q4
                    rw [h4] at h; dsimp only at h
                    cases h6 : allocStep 128 st.ips6 with
                    | none => rw [h6] at h; dsimp only at h; cases h
                    | some q6 =>
                        obtain ⟨c6, a6, b6, s6⟩ := q6
                        rw [h6] at h; dsimp only at h
                        exact Or.inr ⟨tg, l, peer, c4, a4, b4, s4, c6, a6, b6, s6,
                          rfl, rfl, rfl, hm, rfl, rfl, (Except.ok.inj h).symm⟩

theorem genLoop_append (st : GenSt) (xs ys : List RIface) :
    genLoop st (xs ++ ys) = ebind (genLoop st xs) (fun st2 => genLoop st2 ys) := by
  induction xs generalizing st with
  | nil =>
      simp only [List.nil_append, genLoop]
      rw [ebind_ok]
  | cons i r ih =>
      simp only [List.cons_append, genLoop]
      cases hs : genStep st i with
      | error e => rw [ebind_error, ebind_error, ebind_error]
      | ok s2 => rw [ebind_ok, ebind_ok]; exact ih s2

theorem cntAB_comm (a b : Nat) : cntAB a b = cntAB b a := by
  funext q; unfold cntAB; exact Bool.or_comm _ _

theorem genLoop_neutral (a b : Nat) (xs : List RIface) :
    ∀ (st st' : GenSt), genLoop st xs = .ok st' →
    (∀ i ∈ xs, i.rid ≠ a ∧ i.rid ≠ b) →
    st'.pairs.countP (cntAB a b) = st.pairs.countP (cntAB a b) ∧
    st'.scanned = st.scanned ++ xs.map RIface.rid := by
  induction xs with
  | nil =>
      intro st st' h _
      simp only [genLoop] at h
      injection h with h
      subst h
      exact ⟨rfl, by simp⟩
  | cons i r ih =>
      intro st st' h hn
      simp only [genLoop] at h
      obtain ⟨s2, hstep, hrest⟩ := ebind_ok_inv h
      obtain ⟨hc, hs⟩ := ih s2 st' hrest (fun j hj => hn j (List.mem_cons_of_mem i hj))
      have hir := hn i (List.mem_cons_self i r)
      rcases genStep_ok_cases st i s2 hstep with ⟨hsk, -⟩ |
        ⟨tg, l, peer, c4, a4, b4, s4, c6, a6, b6, s6, -, -, -, -, -, -, hpr⟩
      · subst hsk
        refine ⟨by rw [hc]; rfl, ?_⟩
        rw [hs]
        show (st.scanned ++ [i.rid]) ++ r.map RIface.rid = _
        rw [List.append_assoc]
        rfl
      · subst hpr
        constructor
        · rw [hc]
          show (st.pairs ++ [(i.rid, peer.rid)]).countP (cntAB a b) = _
          rw [List.countP_append]
          have hcf : cntAB a b (i.rid, peer.rid) = false := by
            unfold cntAB
            rw [Bool.or_eq_false_iff]
            constructor
            · rw [decide_eq_false_iff_not]
              intro h'
              exact hir.1 (congrArg Prod.fst h')
            · rw [decide_eq_false_iff_not]
              intro h'
              exact hir.2 (congrArg Prod.fst h')
          simp [List.countP_cons, hcf]
        · rw [hs]
          show (st.scanned ++ [i.rid]) ++ r.map RIface.rid = _
          rw [List.append_assoc]
          rfl

theorem nodup_split_facts {α : Type} (xs ys zs : List α) (a b : α)
    (h : (xs ++ a :: (ys ++ b :: zs)).Nodup) :
    a ≠ b ∧ (∀ x ∈ xs, x ≠ a ∧ x ≠ b) ∧ (∀ x ∈ ys, x ≠ a ∧ x ≠ b) ∧
    (∀ x ∈ zs, x ≠ a ∧ x ≠ b) := by
  rw [List.nodup_append] at h
  obtain ⟨-, hcons, hdisj⟩ := h
  rw [List.nodup_cons] at hcons
  obtain ⟨hamem, hrest⟩ := hcons
  rw [List.nodup_append] at hrest
  obtain ⟨-, hbcons, hdisj2⟩ := hrest
  rw [List.nodup_cons] at hbcons
  obtain ⟨hbmem, -⟩ := hbcons
  refine ⟨?_, ?_, ?_, ?_⟩
  · intro h'
    exact hamem (by rw [List.mem_append, h']; right; exact List.mem_cons_self b zs)
  · intro x hx
    have hq := hdisj hx
    constructor
    · intro h'; exact hq (by rw [h']; exact List.mem_cons_self a _)
    · intro h'
      exact hq (by rw [h', List.mem_cons, List.mem_append]; right; right
                   exact List.mem_cons_self b zs)
  · intro x hx
    constructor
    · intro h'; exact hamem (by rw [List.mem_append]; left; rw [← h']; exact hx)
    · intro h'; exact hdisj2 hx (by rw [← h']; exact List.mem_cons_self x zs)
  · intro x hx
    constructor
    · intro h'
      exact hamem (by rw [List.mem_append]; right; rw [List.mem_cons]
                      right; rw [← h']; exact hx)
    · intro h'; exact hbmem (by rw [← h']; exact hx)

theorem genLoop_pair_once
    (A B : RIface) (L1 L2 L3 : List RIface) (st0 st : GenSt)
    (hok : genLoop st0 (L1 ++ A :: (L2 ++ B :: L3)) = .ok st)
    (htgA : tagSel A ≠ none) (htgB : tagSel B ≠ none)
    (hlA : A.vlink ≠ none) (hlB : B.vlink ≠ none)
    (hpA : peerIdOf A = B.rid) (hpB : peerIdOf B = A.rid)
    (hne : A.rid ≠ B.rid)
    (hsc : ∀ x ∈ st0.scanned, x ≠ A.rid ∧ x ≠ B.rid)
    (hcnt0 : st0.pairs.countP (cntAB A.rid B.rid) = 0)
    (h1 : ∀ i ∈ L1, i.rid ≠ A.rid ∧ i.rid ≠ B.rid)
    (h2 : ∀ i ∈ L2, i.rid ≠ A.rid ∧ i.rid ≠ B.rid)
    (h3 : ∀ i ∈ L3, i.rid ≠ A.rid ∧ i.rid ≠ B.rid) :
    st.pairs.countP (cntAB A.rid B.rid) = 1 := by
  rw [genLoop_append] at hok
  obtain ⟨s1, hL1, hok⟩ := ebind_ok_inv hok
  obtain ⟨hc1, hs1⟩ := genLoop_neutral A.rid B.rid L1 st0 s1 hL1 h1
  simp only [genLoop] at hok
  obtain ⟨s2, hstA, hok⟩ := ebind_ok_inv hok
  rcases genStep_ok_cases s1 A s2 hstA with ⟨hsk, hwhy⟩ |
    ⟨tg, l, peer, c4, a4, b4, s4, c6, a6, b6, s6, -, -, hf, hm, -, -, hpr⟩
  · exfalso
    rcases hwhy with h' | h' | ⟨peer, hf, hm⟩
    · exact htgA h'
    · exact hlA h'
    · have hprid : peer.rid = B.rid := by
        have hpeq := List.find?_some hf
        simp only [decide_eq_true_eq] at hpeq
        exact hpeq.trans hpA
      rw [hprid, hs1] at hm
      rcases List.mem_append.mp hm with hm' | hm'
      · rcases List.mem_append.mp hm' with hm'' | hm''
        · exact (hsc _ hm'').2 rfl
        · obtain ⟨j, hj, hjr⟩ := List.mem_map.mp hm''
          exact (h1 j hj).2 hjr
      · exact hne (List.mem_singleton.mp hm').symm
  · have hprid : peer.rid = B.rid := by
      have hpeq := List.find?_some hf
      simp only [decide_eq_true_eq] at hpeq
      exact hpeq.trans hpA
    subst hpr
    have hcnt2 : (procSt s1 A tg peer a4 b4 s4 a6 b6 s6).pairs.countP
        (cntAB A.rid B.rid) = 1 := by
      show (s1.pairs ++ [(A.rid, peer.rid)]).countP (cntAB A.rid B.rid) = 1
      rw [List.countP_append, hc1, hcnt0, hprid]
      simp [List.countP_cons, cntAB]
    rw [genLoop_append] at hok
    obtain ⟨s3, hL2, hok⟩ := ebind_ok_inv hok
    obtain ⟨hc3, hs3⟩ := genLoop_neutral A.rid B.rid L2 _ s3 hL2 h2
    simp only [genLoop] at hok
    obtain ⟨s4', hstB, hok⟩ := ebind_ok_inv hok
    rcases genStep_ok_cases s3 B s4' hstB with ⟨hsk', -⟩ |
      ⟨tg', l', peer', c4', a4', b4', s4x, c6', a6', b6', s6x, -, -, hf', hm', -, -, hpr'⟩
    · subst hsk'
      obtain ⟨hcf, -⟩ := genLoop_neutral A.rid B.rid L3 _ st hok h3
      rw [hcf]
      show s3.pairs.countP (cntAB A.rid B.rid) = 1
      rw [hc3, hcnt2]
    · exfalso
      have hprid' : peer'.rid = A.rid := by
        have hpeq := List.find?_some hf'
        simp only [decide_eq_true_eq] at hpeq
        exact hpeq.trans hpB
      apply hm'
      rw [hprid', hs3]
      show A.rid ∈ (procSt s1 A tg peer a4 b4 s4 a6 b6 s6).scanned
        ++ L2.map RIface.rid ++ [B.rid]
      have : A.rid ∈ (procSt s1 A tg peer a4 b4 s4 a6 b6 s6).scanned := by
        show A.rid ∈ s1.scanned ++ [A.rid]
        simp
      simp [this]

/-- C4: for every point-to-point pair (A, B) whose two ports both carry
the `renumber` tag and a ptp role tag and are joined by one shared
virtual link, `GenerateNew.run` processes the pair exactly once
regardless of whether A or B is iterated first: the first-visited port
lands in `scanned_ids`, and the second port, when later reached as a
primary candidate, is skipped because its peer is already in that
list. -/
theorem c4_pair_processed_once
    (db : RDb) (ips4 ips6 : List Cidr) (A B : RIface) (st : GenSt)
    (hnd : (db.ifaces.map RIface.rid).Nodup)
    (hA : A ∈ db.ifaces) (hB : B ∈ db.ifaces) (hne : A.rid ≠ B.rid)
    (hAt : "renumber" ∈ A.tags) (hBt : "renumber" ∈ B.tags)
    (htgA : tagSel A ≠ none) (htgB : tagSel B ≠ none)
    (hlA : A.vlink = some (A.rid, B.rid)) (hlB : B.vlink = some (A.rid, B.rid))
    (hok : genRun db ips4 ips6 = .ok st) :
    st.pairs.countP (cntAB A.rid B.rid) = 1 := by
  unfold genRun at hok
  by_cases htags : "renumber" ∈ db.tgs ∧ "l2ptp" ∈ db.tgs ∧ "l3ptp" ∈ db.tgs
  · rw [if_pos htags] at hok
    obtain ⟨stL, hloop, hif⟩ := ebind_ok_inv hok
    by_cases hup : stL.updated = true
    · rw [if_pos hup] at hif
      injection hif with hif
      subst hif
      have hAL : A ∈ db.ifaces.filter (fun i => decide ("renumber" ∈ i.tags)) :=
        List.mem_filter.mpr ⟨hA, decide_eq_true hAt⟩
      have hBL : B ∈ db.ifaces.filter (fun i => decide ("renumber" ∈ i.tags)) :=
        List.mem_filter.mpr ⟨hB, decide_eq_true hBt⟩
      have hndL : ((db.ifaces.filter (fun i => decide ("renumber" ∈ i.tags))).map
          RIface.rid).Nodup :=
        List.Nodup.sublist ((List.filter_sublist _).map RIface.rid) hnd
      have hpA : peerIdOf A = B.rid := by
        rw [peerIdOf_eq A (A.rid, B.rid) hlA]; simp
      have hpB : peerIdOf B = A.rid := by
        rw [peerIdOf_eq B (A.rid, B.rid) hlB]; simp [hne]
      have hlA' : A.vlink ≠ none := by rw [hlA]; simp
      have hlB' : B.vlink ≠ none := by rw [hlB]; simp
      obtain ⟨l1, l2, hLdec⟩ := List.append_of_mem hAL
      rw [hLdec] at hBL
      rcases List.mem_append.mp hBL with hB1 | hB2
      · -- B comes before A
        obtain ⟨m1, m2, hdec2⟩ := List.append_of_mem hB1
        have hLdec2 : db.ifaces.filter (fun i => decide ("renumber" ∈ i.tags)) =
            m1 ++ B :: (m2 ++ A :: l2) := by
          rw [hLdec, hdec2, List.append_assoc]
          rfl
        rw [hLdec2] at hndL hloop
        simp only [List.map_append, List.map_cons] at hndL
        obtain ⟨-, hx1, hx2, hx3⟩ := nodup_split_facts _ _ _ _ _ hndL
        have := genLoop_pair_once B A m1 m2 l2 _ stL hloop htgB htgA hlB' hlA'
          hpB hpA (Ne.symm hne)
          (fun x hx => absurd hx (List.not_mem_nil x))
          rfl
          (fun i hi => (hx1 _ (List.mem_map_of_mem RIface.rid hi)))
          (fun i hi => (hx2 _ (List.mem_map_of_mem RIface.rid hi)))
          (fun i hi => (hx3 _ (List.mem_map_of_mem RIface.rid hi)))
        rw [cntAB_comm] at this
        exact this
      · rcases List.mem_cons.mp hB2 with hBA | hB2'
        · exact absurd (congrArg RIface.rid hBA).symm hne
        · -- A comes before B
          obtain ⟨m1, m2, hdec2⟩ := List.append_of_mem hB2'
          have hLdec2 : db.ifaces.filter (fun i => decide ("renumber" ∈ i.tags)) =
              l1 ++ A :: (m1 ++ B :: m2) := by
            rw [hLdec, hdec2]
          rw [hLdec2] at hndL hloop
          simp only [List.map_append, List.map_cons] at hndL
          obtain ⟨-, hx1, hx2, hx3⟩ := nodup_split_facts _ _ _ _ _ hndL
          exact genLoop_pair_once A B l1 m1 m2 _ stL hloop htgA htgB hlA' hlB'
            hpA hpB hne
            (fun x hx => absurd hx (List.not_mem_nil x))
            rfl
            (fun i hi => (hx1 _ (List.mem_map_of_mem RIface.rid hi)))
            (fun i hi => (hx2 _ (List.mem_map_of_mem RIface.rid hi)))
            (fun i hi => (hx3 _ (List.mem_map_of_mem RIface.rid hi)))
    · rw [if_neg hup] at hif
      cases hif
  · rw [if_neg htags] at hok
    cases hok

/-- Concrete two-port scenario: ports 1 and 2 joined by one virtual
link, both tagged `renumber` and `l2ptp`. -/
def wifA : RIface := ⟨1, "r1", "et1", ["renumber", "l2ptp"], some (1, 2)⟩

/-- Peer port of `wifA` on the same virtual link. -/
def wifB : RIface := ⟨2, "r2", "et1", ["renumber", "l2ptp"], some (1, 2)⟩

/-- Concrete store: the two linked ports and one pre-existing address
record on port 1. -/
def wdb5 : RDb := ⟨[wifA, wifB], [⟨5, 32, some 1, ["old"]⟩], ["renumber", "l2ptp", "l3ptp"]⟩

/-- The state `GenerateNew.run` reaches on `wdb5` with available sets
`0.0.0.0/30` and `::/126`: one processed pair, old record tagged
`prune`, four new records, `renumber` dropped. -/
def wst5 : GenSt :=
  ⟨[⟨1, "r1", "et1", ["l2ptp"], some (1, 2)⟩, ⟨2, "r2", "et1", ["l2ptp"], some (1, 2)⟩],
   [⟨5, 32, some 1, ["old", "prune"]⟩,
    ⟨0, 31, some 1, ["l2ptp", "new_ip"]⟩, ⟨0, 127, some 1, ["l2ptp", "new_ip"]⟩,
    ⟨1, 31, some 2, ["l2ptp", "new_ip"]⟩, ⟨1, 127, some 2, ["l2ptp", "new_ip"]⟩],
   ["renumber", "l2ptp", "l3ptp", "new_ip", "prune"],
   [⟨2, 31⟩], [⟨2, 127⟩], [1, 2], [(1, 2)], true⟩

theorem genRun_wdb5 : genRun wdb5 [⟨0, 30⟩] [⟨0, 126⟩] = .ok wst5 := by rfl

theorem c4_pair_processed_once_witness :
    (1 : Nat) ≠ 2 ∧ wst5.pairs.countP (cntAB 1 2) = 1 := by
  refine ⟨by decide, ?_⟩
  exact c4_pair_processed_once wdb5 [⟨0, 30⟩] [⟨0, 126⟩] wifA wifB wst5
    (by decide) (by decide) (by decide) (by decide) (by decide) (by decide)
    (by decide) (by decide) rfl rfl genRun_wdb5

theorem stripNew_ifId (r : RRec) : (stripNew r).ifId = r.ifId := rfl

theorem mem_portsOf {a : Nat} {ps : List (Nat × Nat)} :
    a ∈ portsOf ps ↔ ∃ p ∈ ps, a = p.1 ∨ a = p.2 := by
  induction ps with
  | nil => simp [portsOf]
  | cons q r ih =>
      show a ∈ q.1 :: q.2 :: portsOf r ↔ _
      simp only [List.mem_cons, ih]
      constructor
      · rintro (h | h | ⟨p, hp, h⟩)
        · exact ⟨q, Or.inl rfl, Or.inl h⟩
        · exact ⟨q, Or.inl rfl, Or.inr h⟩
        · exact ⟨p, Or.inr hp, h⟩
      · rintro ⟨p, hp, h⟩
        rcases hp with rfl | hp'
        · rcases h with h | h
          · exact Or.inl h
          · exact Or.inr (Or.inl h)
        · exact Or.inr (Or.inr ⟨p, hp', h⟩)

theorem link_shape {ifs : List RIface} (hprop : properLinks ifs = true)
    (i0 : RIface) (hi0 : i0 ∈ ifs) (l0 : Nat × Nat) (hl0 : i0.vlink = some l0) :
    ((l0.1 = i0.rid ∧ l0.2 = peerIdOf i0) ∨ (l0.1 = peerIdOf i0 ∧ l0.2 = i0.rid)) ∧
    i0.rid ≠ peerIdOf i0 ∧
    (∀ j ∈ ifs, (j.rid = i0.rid ∨ j.rid = peerIdOf i0) → j.vlink = some l0) := by
  obtain ⟨h1, h2, h3⟩ := properLinks_spec hprop i0 hi0 l0 hl0
  rcases peerIdOf_cases i0 l0 hl0 h1 h2 with ⟨ha, hb⟩ | ⟨ha, hb⟩
  · refine ⟨Or.inl ⟨ha.symm, hb.symm⟩, ?_, ?_⟩
    · intro e; exact h2 ((ha.symm.trans e).trans hb)
    · intro j hj hjr
      apply h3 j hj
      rcases hjr with h' | h'
      · exact Or.inl (h'.trans ha)
      · exact Or.inr (h'.trans hb)
  · refine ⟨Or.inr ⟨hb.symm, ha.symm⟩, ?_, ?_⟩
    · intro e; exact h2 ((hb.symm.trans e.symm).trans ha)
    · intro j hj hjr
      apply h3 j hj
      rcases hjr with h' | h'
      · exact Or.inr (h'.trans ha)
      · exact Or.inl (h'.trans hb)

theorem pruneMark_extend (ps : List (Nat × Nat)) (u v : Nat) (r : RRec)
    (hdis : ∀ a ∈ portsOf ps, a ≠ u ∧ a ≠ v) :
    (if (pruneMark ps r).ifId = some u ∨ (pruneMark ps r).ifId = some v
      then addTagR (pruneMark ps r) "prune" else pruneMark ps r)
    = pruneMark (ps ++ [(u, v)]) r := by
  by_cases hc : r.ifId = some u ∨ r.ifId = some v
  · rw [if_pos (by rw [pruneMark_ifId]; exact hc)]
    have hold : (portsOf ps).any (fun a => decide (r.ifId = some a)) = false := by
      cases hany : (portsOf ps).any (fun a => decide (r.ifId = some a)) with
      | false => rfl
      | true =>
          exfalso
          obtain ⟨a, ha, hpa⟩ := List.any_eq_true.mp hany
          rw [decide_eq_true_eq] at hpa
          rcases hc with h' | h'
          · exact (hdis a ha).1 (Option.some.inj (hpa.symm.trans h'))
          · exact (hdis a ha).2 (Option.some.inj (hpa.symm.trans h'))
    have h1 : pruneMark ps r = r := by
      unfold pruneMark; rw [hold]; rfl
    rw [h1]
    unfold pruneMark
    rw [portsOf_append, List.any_append, hold, Bool.false_or]
    have h2 : (portsOf [(u, v)]).any (fun a => decide (r.ifId = some a)) = true := by
      show ([u, v].any fun a => decide (r.ifId = some a)) = true
      rcases hc with h' | h' <;> simp [h']
    rw [h2]
    rfl
  · rw [if_neg (by rw [pruneMark_ifId]; exact hc)]
    obtain ⟨hcu, hcv⟩ := not_or.mp hc
    unfold pruneMark
    rw [portsOf_append, List.any_append]
    have h2 : (portsOf [(u, v)]).any (fun a => decide (r.ifId = some a)) = false := by
      show ([u, v].any fun a => decide (r.ifId = some a)) = false
      simp [hcu, hcv]
    rw [h2, Bool.or_false]

theorem stripRenumber_cases {ifs : List RIface} {n : Nat} {j : RIface}
    (h : j ∈ stripRenumber ifs n) :
    ∃ x ∈ ifs, j.rid = x.rid ∧
      ((x.rid = n ∧ "renumber" ∉ j.tags) ∨ (x.rid ≠ n ∧ j = x)) := by
  unfold stripRenumber at h
  obtain ⟨x, hx, hxe⟩ := List.mem_map.mp h
  by_cases hc : x.rid = n
  · rw [if_pos hc] at hxe
    refine ⟨x, hx, ?_, Or.inl ⟨hc, ?_⟩⟩
    · rw [← hxe]
    · rw [← hxe]
      simp [List.mem_filter]
  · rw [if_neg hc] at hxe
    exact ⟨x, hx, by rw [← hxe], Or.inr ⟨hc, hxe.symm⟩⟩

/-- Invariant of the `GenerateNew.run` interface loop over store `db`:
interface ids are stable; every processed pair's primary id is in
`scanned_ids` and the pair matches a db interface and its link peer; the
ports of the processed pairs are pairwise distinct; the records are the
original ones carrying cumulative `prune` marks plus the created ones,
exactly two per processed port, each shaped `[ptp-tag, new_ip]`; and
`renumber` is gone from every processed port. -/
structure RInv (db : RDb) (st : GenSt) : Prop where
  ridsEq : st.ifaces.map RIface.rid = db.ifaces.map RIface.rid
  pairsWit : ∀ p ∈ st.pairs, p.1 ∈ st.scanned ∧
    (∃ i, i ∈ db.ifaces ∧ i.rid = p.1 ∧ (∃ l, i.vlink = some l) ∧ peerIdOf i = p.2) ∧
    (∃ w, w ∈ db.ifaces ∧ w.rid = p.2)
  portsNd : (portsOf st.pairs).Nodup
  recsShape : ∃ created : List RRec,
    st.recs = db.recs.map (pruneMark st.pairs) ++ created ∧
    (∀ r ∈ created, (∃ tg, (tg = "l2ptp" ∨ tg = "l3ptp") ∧ r.tags = [tg, "new_ip"]) ∧
      (∃ a, r.ifId = some a ∧ a ∈ portsOf st.pairs)) ∧
    (∀ a : Nat, created.countP (fun r => decide (r.ifId = some a)) =
      if a ∈ portsOf st.pairs then 2 else 0)
  renumGone : ∀ j ∈ st.ifaces, j.rid ∈ portsOf st.pairs → "renumber" ∉ j.tags

theorem RInv_init (db : RDb) (tgs : List String) (ips4 ips6 : List Cidr) :
    RInv db ⟨db.ifaces, db.recs, tgs, ips4, ips6, [], [], false⟩ := by
  refine ⟨rfl, ?_, ?_, ⟨[], ?_, ?_, ?_⟩, ?_⟩
  · intro p hp; exact absurd hp (List.not_mem_nil p)
  · exact List.nodup_nil
  · show db.recs = db.recs.map (pruneMark []) ++ []
    rw [List.append_nil]
    symm
    have h1 : ∀ r ∈ db.recs, pruneMark [] r = r := fun r _ => rfl
    exact (List.map_congr_left h1).trans (List.map_id' db.recs)
  · intro r hr; exact absurd hr (List.not_mem_nil r)
  · intro a; rfl
  · intro j hj hport; exact absurd hport (List.not_mem_nil j.rid)

theorem genStep_inv (db : RDb) (hprop : properLinks db.ifaces = true)
    (i : RIface) (st st' : GenSt) (hok : genStep st i = .ok st')
    (hidb : i ∈ db.ifaces) (hisc : i.rid ∉ st.scanned)
    (hinv : RInv db st) :
    RInv db st' ∧ st'.scanned = st.scanned ++ [i.rid] ∧ st'.tgs = st.tgs := by
  rcases genStep_ok_cases st i st' hok with ⟨hsk, -⟩ |
    ⟨tg, l, peer, c4, a4, b4, s4, c6, a6, b6, s6, htg, hvl, hf, hm, -, -, hpr⟩
  · subst hsk
    refine ⟨?_, rfl, rfl⟩
    exact {
      ridsEq := hinv.ridsEq
      pairsWit := fun p hp =>
        ⟨List.mem_append_left _ ((hinv.pairsWit p hp).1),
         (hinv.pairsWit p hp).2.1, (hinv.pairsWit p hp).2.2⟩
      portsNd := hinv.portsNd
      recsShape := hinv.recsShape
      renumGone := hinv.renumGone }
  · subst hpr
    have hprid : peer.rid = peerIdOf i := by
      have hpeq := List.find?_some hf
      simp only [decide_eq_true_eq] at hpeq
      exact hpeq
    have hpmem : peer ∈ st.ifaces := List.mem_of_find?_eq_some hf
    have hvsc : peer.rid ∉ st.scanned := fun h => hm (List.mem_append_left _ h)
    have huv : i.rid ≠ peer.rid := by
      intro e
      apply hm
      apply List.mem_append_right
      rw [← e]
      exact List.mem_cons_self _ _
    obtain ⟨hor_i, hne_i, hshare_i⟩ := link_shape hprop i hidb l hvl
    have hw : ∃ w, w ∈ db.ifaces ∧ w.rid = peer.rid := by
      have h1 : peer.rid ∈ st.ifaces.map RIface.rid := List.mem_map_of_mem _ hpmem
      rw [hinv.ridsEq] at h1
      obtain ⟨w, hw1, hw2⟩ := List.mem_map.mp h1
      exact ⟨w, hw1, hw2⟩
    have hdis : ∀ a ∈ portsOf st.pairs, a ≠ i.rid ∧ a ≠ peer.rid := by
      intro a ha
      obtain ⟨p, hp, hap⟩ := mem_portsOf.mp ha
      obtain ⟨hxsc, ⟨i0, hi0db, hi0rid, ⟨l0, hl0⟩, hi0peer⟩, ⟨w, hwdb, hwrid⟩⟩ :=
        hinv.pairsWit p hp
      obtain ⟨hor0, hne0, hshare0⟩ := link_shape hprop i0 hi0db l0 hl0
      rcases hap with hap | hap
      · subst hap
        exact ⟨fun e => hisc (e ▸ hxsc), fun e => hvsc (e ▸ hxsc)⟩
      · subst hap
        constructor
        · intro e
          have hilink : i.vlink = some l0 := by
            apply hshare0 i hidb
            right
            rw [hi0peer]
            exact e.symm
          have hll0 : l = l0 := Option.some.inj (hvl.symm.trans hilink)
          subst hll0
          rcases hor_i with ⟨hia, hib⟩ | ⟨hia, hib⟩ <;>
            rcases hor0 with ⟨h0a, h0b⟩ | ⟨h0a, h0b⟩
          · exact hisc (by rw [hia.symm.trans (h0a.trans hi0rid)]; exact hxsc)
          · exact hvsc (by rw [hprid, hib.symm.trans (h0b.trans hi0rid)]; exact hxsc)
          · exact hvsc (by rw [hprid, hia.symm.trans (h0a.trans hi0rid)]; exact hxsc)
          · exact hisc (by rw [hib.symm.trans (h0b.trans hi0rid)]; exact hxsc)
        · intro e
          have hwlink0 : w.vlink = some l0 := by
            apply hshare0 w hwdb
            right
            rw [hi0peer]
            exact hwrid
          have hwlinki : w.vlink = some l := by
            apply hshare_i w hwdb
            right
            rw [← hprid, hwrid]
            exact e
          have hll0 : l = l0 := Option.some.inj (hwlinki.symm.trans hwlink0)
          subst hll0
          rcases hor_i with ⟨hia, hib⟩ | ⟨hia, hib⟩ <;>
            rcases hor0 with ⟨h0a, h0b⟩ | ⟨h0a, h0b⟩
          · exact hisc (by rw [hia.symm.trans (h0a.trans hi0rid)]; exact hxsc)
          · exact huv ((hia.symm.trans (h0a.trans hi0peer)).trans e)
          · exact huv ((hib.symm.trans (h0b.trans hi0peer)).trans e)
          · exact hisc (by rw [hib.symm.trans (h0b.trans hi0rid)]; exact hxsc)
    have hu_mem : i.rid ∈ portsOf (st.pairs ++ [(i.rid, peer.rid)]) := by
      rw [portsOf_append, List.mem_append]
      right
      exact List.mem_cons_self _ _
    have hv_mem : peer.rid ∈ portsOf (st.pairs ++ [(i.rid, peer.rid)]) := by
      rw [portsOf_append, List.mem_append]
      right
      show peer.rid ∈ [i.rid, peer.rid]
      simp
    obtain ⟨created, hcr, hprops, hcount⟩ := hinv.recsShape
    have hpp : (procSt st i tg peer a4 b4 s4 a6 b6 s6).pairs
        = st.pairs ++ [(i.rid, peer.rid)] := rfl
    refine ⟨?_, rfl, rfl⟩
    refine {
      ridsEq := ?_
      pairsWit := ?_
      portsNd := ?_
      recsShape := ?_
      renumGone := ?_ }
    · show (stripRenumber (stripRenumber st.ifaces i.rid) peer.rid).map RIface.rid = _
      rw [stripRenumber_rids, stripRenumber_rids, hinv.ridsEq]
    · intro p hp
      rcases List.mem_append.mp hp with hp' | hp'
      · obtain ⟨h1, h2, h3⟩ := hinv.pairsWit p hp'
        exact ⟨List.mem_append_left _ h1, h2, h3⟩
      · have hpe : p = (i.rid, peer.rid) := List.mem_singleton.mp hp'
        subst hpe
        exact ⟨List.mem_append_right _ (List.mem_cons_self _ _),
          ⟨i, hidb, rfl, ⟨l, hvl⟩, hprid.symm⟩, hw⟩
    · show (portsOf (st.pairs ++ [(i.rid, peer.rid)])).Nodup
      rw [portsOf_append, List.nodup_append]
      refine ⟨hinv.portsNd, ?_, ?_⟩
      · show ([i.rid, peer.rid] : List Nat).Nodup
        simp [huv]
      · intro a ha hain
        have hain' : a ∈ [i.rid, peer.rid] := hain
        have hda := hdis a ha
        rcases List.mem_cons.mp hain' with e | hain''
        · exact hda.1 e
        · exact hda.2 (List.mem_singleton.mp hain'')
    · refine ⟨created ++
        [⟨a4, 31, some i.rid, [tg, "new_ip"]⟩, ⟨a6, 127, some i.rid, [tg, "new_ip"]⟩,
         ⟨b4, 31, some peer.rid, [tg, "new_ip"]⟩,
         ⟨b6, 127, some peer.rid, [tg, "new_ip"]⟩], ?_, ?_, ?_⟩
      · show st.recs.map (fun r => if r.ifId = some i.rid ∨ r.ifId = some peer.rid
            then addTagR r "prune" else r) ++
          [⟨a4, 31, some i.rid, [tg, "new_ip"]⟩, ⟨a6, 127, some i.rid, [tg, "new_ip"]⟩,
           ⟨b4, 31, some peer.rid, [tg, "new_ip"]⟩,
           ⟨b6, 127, some peer.rid, [tg, "new_ip"]⟩] = _
        rw [hcr, List.map_append, List.map_map, List.append_assoc]
        congr 1
        · apply List.map_congr_left
          intro r _
          exact pruneMark_extend st.pairs i.rid peer.rid r hdis
        · congr 1
          have h1 : ∀ r ∈ created,
              (if r.ifId = some i.rid ∨ r.ifId = some peer.rid
                then addTagR r "prune" else r) = r := by
            intro r hr
            obtain ⟨-, a, har, haports⟩ := hprops r hr
            rw [if_neg]
            rintro (h' | h')
            · exact (hdis a haports).1 (Option.some.inj (har.symm.trans h'))
            · exact (hdis a haports).2 (Option.some.inj (har.symm.trans h'))
          exact (List.map_congr_left h1).trans (List.map_id' created)
      · intro r hr
        rcases List.mem_append.mp hr with hr' | hr'
        · obtain ⟨hshape, a, har, haports⟩ := hprops r hr'
          refine ⟨hshape, a, har, ?_⟩
          rw [hpp, portsOf_append, List.mem_append]
          left
          exact haports
        · have htgv := tagSel_values i tg htg
          simp only [List.mem_cons, List.not_mem_nil, or_false] at hr'
          rcases hr' with rfl | rfl | rfl | rfl
          · exact ⟨⟨tg, htgv, rfl⟩, i.rid, rfl, hu_mem⟩
          · exact ⟨⟨tg, htgv, rfl⟩, i.rid, rfl, hu_mem⟩
          · exact ⟨⟨tg, htgv, rfl⟩, peer.rid, rfl, hv_mem⟩
          · exact ⟨⟨tg, htgv, rfl⟩, peer.rid, rfl, hv_mem⟩
      · intro a
        rw [hpp, List.countP_append, hcount a]
        by_cases hau : a = i.rid
        · subst hau
          have hnotold : i.rid ∉ portsOf st.pairs := fun h => (hdis _ h).1 rfl
          rw [if_neg hnotold, if_pos hu_mem]
          have hvu : peer.rid ≠ i.rid := fun e => huv e.symm
          simp [List.countP_cons, hvu]
        · by_cases hav : a = peer.rid
          · subst hav
            have hnotold : peer.rid ∉ portsOf st.pairs := fun h => (hdis _ h).2 rfl
            rw [if_neg hnotold, if_pos hv_mem]
            simp [List.countP_cons, huv]
          · have h1 : i.rid ≠ a := fun e => hau e.symm
            have h2 : peer.rid ≠ a := fun e => hav e.symm
            have hfour : ([⟨a4, 31, some i.rid, [tg, "new_ip"]⟩,
                ⟨a6, 127, some i.rid, [tg, "new_ip"]⟩,
                ⟨b4, 31, some peer.rid, [tg, "new_ip"]⟩,
                ⟨b6, 127, some peer.rid, [tg, "new_ip"]⟩] : List RRec).countP
                (fun r => decide (r.ifId = some a)) = 0 := by
              simp [List.countP_cons, h1, h2]
            rw [hfour, portsOf_append]
            by_cases haold : a ∈ portsOf st.pairs
            · rw [if_pos haold, if_pos (List.mem_append_left _ haold)]
            · have hnot2 : a ∉ portsOf st.pairs ++ portsOf [(i.rid, peer.rid)] := by
                intro hmem
                rcases List.mem_append.mp hmem with hmem' | hmem'
                · exact haold hmem'
                · have h3 : a ∈ [i.rid, peer.rid] := hmem'
                  rcases List.mem_cons.mp h3 with e | e'
                  · exact hau e
                  · exact hav (List.mem_singleton.mp e')
              rw [if_neg haold, if_neg hnot2]
    · intro j hj hjports
      have hj' : j ∈ stripRenumber (stripRenumber st.ifaces i.rid) peer.rid := hj
      obtain ⟨x, hx, hjrx, hcase⟩ := stripRenumber_cases hj'
      rcases hcase with ⟨-, hnot⟩ | ⟨hneo, hjx⟩
      · exact hnot
      · subst hjx
        obtain ⟨y, hy, hjry, hcase2⟩ := stripRenumber_cases hx
        rcases hcase2 with ⟨-, hnot⟩ | ⟨hnei, hjy⟩
        · exact hnot
        · subst hjy
          rw [hpp, portsOf_append] at hjports
          rcases List.mem_append.mp hjports with hold | hnew
          · exact hinv.renumGone j hy hold
          · have : j.rid ∈ [i.rid, peer.rid] := hnew
            rcases List.mem_cons.mp this with e | e'
            · exact absurd e hnei
            · exact absurd (List.mem_singleton.mp e') hneo

theorem genLoop_inv (db : RDb) (hprop : properLinks db.ifaces = true) :
    ∀ (L : List RIface) (st st' : GenSt),
    genLoop st L = .ok st' →
    (∀ i ∈ L, i ∈ db.ifaces) →
    (st.scanned ++ L.map RIface.rid).Nodup →
    RInv db st →
    RInv db st' ∧ st'.tgs = st.tgs := by
  intro L
  induction L with
  | nil =>
      intro st st' h _ _ hinv
      simp only [genLoop] at h
      injection h with h
      subst h
      exact ⟨hinv, rfl⟩
  | cons i r ih =>
      intro st st' h hsub hnd hinv
      simp only [genLoop] at h
      obtain ⟨s2, hstep, hrest⟩ := ebind_ok_inv h
      simp only [List.map_cons] at hnd
      have hisc : i.rid ∉ st.scanned := by
        intro hin
        rw [List.nodup_append] at hnd
        exact hnd.2.2 hin (List.mem_cons_self _ _)
      obtain ⟨hinv2, hscan2, htgs2⟩ := genStep_inv db hprop i st s2 hstep
        (hsub i (List.mem_cons_self i r)) hisc hinv
      have hnd2 : (s2.scanned ++ r.map RIface.rid).Nodup := by
        rw [hscan2, List.append_assoc, List.singleton_append]
        exact hnd
      obtain ⟨hinvf, htgsf⟩ := ih s2 st' hrest
        (fun j hj => hsub j (List.mem_cons_of_mem _ hj)) hnd2 hinv2
      exact ⟨hinvf, htgsf.trans htgs2⟩

theorem final_port_recs (db : RDb) (st : GenSt)
    (hclean : ∀ r ∈ db.recs, "new_ip" ∉ r.tags)
    (hinv : RInv db st) (a : Nat) (ha : a ∈ portsOf st.pairs) :
    ((st.recs.filter (fun r => decide ("prune" ∉ r.tags))).map stripNew).filter
        (fun r => decide (r.ifId = some a)) =
      (st.recs.filter (fun r => decide (r.ifId = some a) &&
        decide ("new_ip" ∈ r.tags))).map stripNew ∧
    (st.recs.filter (fun r => decide (r.ifId = some a) &&
        decide ("new_ip" ∈ r.tags))).length = 2 ∧
    ∀ r ∈ st.recs.filter (fun r => decide (r.ifId = some a) &&
        decide ("new_ip" ∈ r.tags)),
      r ∉ db.recs ∧ ∃ tg, (tg = "l2ptp" ∨ tg = "l3ptp") ∧ r.tags = [tg, "new_ip"] := by
  obtain ⟨created, hcr, hprops, hcount⟩ := hinv.recsShape
  have hcreatedp : created.filter (fun r => decide ("prune" ∉ r.tags)) = created := by
    rw [List.filter_eq_self]
    intro r hr
    obtain ⟨⟨tg, htgv, htags⟩, -⟩ := hprops r hr
    rw [decide_eq_true_eq, htags]
    intro hmem
    rcases List.mem_cons.mp hmem with e | e'
    · rcases htgv with rfl | rfl <;> exact absurd e (by decide)
    · exact absurd (List.mem_singleton.mp e') (by decide)
  have hA : (((db.recs.map (pruneMark st.pairs)).filter
      (fun r => decide ("prune" ∉ r.tags))).map stripNew).filter
      (fun r => decide (r.ifId = some a)) = [] := by
    rw [List.filter_eq_nil]
    intro x hx
    obtain ⟨y, hy, hyx⟩ := List.mem_map.mp hx
    obtain ⟨hydbp, hyp⟩ := List.mem_filter.mp hy
    obtain ⟨r0, hr0, hr0y⟩ := List.mem_map.mp hydbp
    rw [decide_eq_true_eq] at hyp
    intro hq
    rw [decide_eq_true_eq] at hq
    have hr0a : r0.ifId = some a := by
      rw [← pruneMark_ifId st.pairs r0, hr0y]
      rw [← hyx, stripNew_ifId] at hq
      exact hq
    have hany : (portsOf st.pairs).any (fun b => decide (r0.ifId = some b)) = true :=
      List.any_eq_true.mpr ⟨a, ha, by rw [hr0a]; exact decide_eq_true rfl⟩
    have hprune : "prune" ∈ y.tags := by
      rw [← hr0y]
      unfold pruneMark
      rw [hany, if_pos rfl]
      exact addTagR_mem r0 "prune"
    exact hyp hprune
  have hC : (created.map stripNew).filter (fun r => decide (r.ifId = some a))
      = (created.filter (fun r => decide (r.ifId = some a))).map stripNew := by
    rw [List.filter_map]
    congr 1
  have hRHSdb : (db.recs.map (pruneMark st.pairs)).filter
      (fun r => decide (r.ifId = some a) && decide ("new_ip" ∈ r.tags)) = [] := by
    rw [List.filter_eq_nil]
    intro y hy
    obtain ⟨r0, hr0, hr0y⟩ := List.mem_map.mp hy
    intro hq
    rw [Bool.and_eq_true, decide_eq_true_eq, decide_eq_true_eq] at hq
    have h2 : "new_ip" ∈ (pruneMark st.pairs r0).tags := by
      rw [hr0y]; exact hq.2
    rcases pruneMark_mem_inv st.pairs r0 "new_ip" h2 with h' | h'
    · exact hclean r0 hr0 h'
    · exact absurd h' (by decide)
  have hRHScr : created.filter (fun r => decide (r.ifId = some a) &&
      decide ("new_ip" ∈ r.tags)) = created.filter (fun r => decide (r.ifId = some a)) := by
    apply List.filter_congr
    intro r hr
    obtain ⟨⟨tg, htgv, htags⟩, -⟩ := hprops r hr
    have hni : decide ("new_ip" ∈ r.tags) = true := by
      rw [decide_eq_true_eq, htags]
      simp
    rw [hni, Bool.and_true]
  refine ⟨?_, ?_, ?_⟩
  · rw [hcr]
    simp only [List.filter_append, List.map_append]
    rw [hA, hcreatedp, hC, hRHSdb, hRHScr]
    simp only [List.map_nil, List.nil_append]
  · rw [hcr, List.filter_append, hRHSdb, hRHScr, List.nil_append]
    rw [← List.countP_eq_length_filter, hcount a, if_pos ha]
  · intro r hr
    rw [hcr, List.filter_append, hRHSdb, hRHScr, List.nil_append] at hr
    have hrc : r ∈ created := List.mem_of_mem_filter hr
    obtain ⟨⟨tg, htgv, htags⟩, -⟩ := hprops r hrc
    refine ⟨?_, tg, htgv, htags⟩
    intro hrdb
    apply hclean r hrdb
    rw [htags]
    simp

/-- C5: running Generate and then Prune leaves each renumbered port with
exactly its newly generated addresses. After a successful
`GenerateNew.run` over a store with consistent ids and shared links and
no stray `new_ip` tags, `PruneIPs.run` succeeds, deletes every record
tagged `prune`, strips `new_ip` from the survivors, and leaves every
processed port with exactly the two records Generate created for it
(shaped `[ptp-tag, new_ip]`, absent from the original store) and with no
`renumber` tag on the port and no `prune` or `new_ip` tag on any
surviving record. -/
theorem c5_generate_prune_roundtrip
    (db : RDb) (ips4 ips6 : List Cidr) (st : GenSt)
    (hnd : (db.ifaces.map RIface.rid).Nodup)
    (hprop : properLinks db.ifaces = true)
    (hclean : ∀ r ∈ db.recs, "new_ip" ∉ r.tags)
    (hok : genRun db ips4 ips6 = .ok st) :
    ∃ recs2, pruneRun st.tgs st.recs = .ok recs2 ∧
      (∀ r ∈ recs2, "prune" ∉ r.tags ∧ "new_ip" ∉ r.tags) ∧
      (∀ j ∈ st.ifaces, j.rid ∈ portsOf st.pairs → "renumber" ∉ j.tags) ∧
      (∀ a ∈ portsOf st.pairs,
        recs2.filter (fun r => decide (r.ifId = some a)) =
          (st.recs.filter (fun r => decide (r.ifId = some a) &&
            decide ("new_ip" ∈ r.tags))).map stripNew ∧
        (recs2.filter (fun r => decide (r.ifId = some a))).length = 2 ∧
        ∀ r2 ∈ st.recs.filter (fun r => decide (r.ifId = some a) &&
            decide ("new_ip" ∈ r.tags)),
          r2 ∉ db.recs ∧ ∃ tg, (tg = "l2ptp" ∨ tg = "l3ptp") ∧
            r2.tags = [tg, "new_ip"]) := by
  unfold genRun at hok
  by_cases htags : "renumber" ∈ db.tgs ∧ "l2ptp" ∈ db.tgs ∧ "l3ptp" ∈ db.tgs
  · rw [if_pos htags] at hok
    obtain ⟨stL, hloop, hif⟩ := ebind_ok_inv hok
    by_cases hup : stL.updated = true
    · rw [if_pos hup] at hif
      injection hif with hif
      subst hif
      have hsub : ∀ i ∈ db.ifaces.filter (fun i => decide ("renumber" ∈ i.tags)),
          i ∈ db.ifaces := fun i hi => (List.mem_filter.mp hi).1
      have hndL : (([] : List Nat) ++
          (db.ifaces.filter (fun i => decide ("renumber" ∈ i.tags))).map
            RIface.rid).Nodup := by
        rw [List.nil_append]
        exact List.Nodup.sublist ((List.filter_sublist _).map RIface.rid) hnd
      obtain ⟨hinv, htgseq⟩ := genLoop_inv db hprop _ _ stL hloop hsub hndL
        (RInv_init db _ ips4 ips6)
      have hstep1 : ∀ (l : List String),
          "new_ip" ∈ (if "new_ip" ∈ l then l else l ++ ["new_ip"]) := by
        intro l; by_cases h : "new_ip" ∈ l
        · rw [if_pos h]; exact h
        · rw [if_neg h]; simp
      have hstep2 : ∀ (l : List String) (s : String), s ∈ l →
          s ∈ (if "prune" ∈ l then l else l ++ ["prune"]) := by
        intro l s hs; by_cases h : "prune" ∈ l
        · rw [if_pos h]; exact hs
        · rw [if_neg h]; exact List.mem_append_left _ hs
      have hstep3 : ∀ (l : List String),
          "prune" ∈ (if "prune" ∈ l then l else l ++ ["prune"]) := by
        intro l; by_cases h : "prune" ∈ l
        · rw [if_pos h]; exact h
        · rw [if_neg h]; simp
      have htgp : "prune" ∈ stL.tgs := by
        rw [htgseq]
        exact hstep3 _
      have htgn : "new_ip" ∈ stL.tgs := by
        rw [htgseq]
        exact hstep2 _ _ (hstep1 db.tgs)
      refine ⟨(stL.recs.filter (fun r => decide ("prune" ∉ r.tags))).map stripNew,
        ?_, ?_, hinv.renumGone, ?_⟩
      · unfold pruneRun
        rw [if_pos ⟨htgp, htgn⟩]
      · intro r hr
        obtain ⟨y, hy, hyr⟩ := List.mem_map.mp hr
        obtain ⟨hyl, hyp⟩ := List.mem_filter.mp hy
        rw [decide_eq_true_eq] at hyp
        constructor
        · rw [← hyr]
          intro hmem
          exact hyp (List.mem_of_mem_filter hmem)
        · rw [← hyr]
          intro hmem
          have h2 := (List.mem_filter.mp hmem).2
          rw [decide_eq_true_eq] at h2
          exact h2 rfl
      · intro a ha
        obtain ⟨h1, h2, h3⟩ := final_port_recs db stL hclean hinv a ha
        refine ⟨h1, ?_, h3⟩
        rw [h1, List.length_map, h2]
    · rw [if_neg hup] at hif
      cases hif
  · rw [if_neg htags] at hok
    cases hok

theorem c5_generate_prune_roundtrip_witness :
    ∃ recs2, pruneRun wst5.tgs wst5.recs = Except.ok recs2 ∧
      (recs2.filter (fun r => decide (r.ifId = some 1))).length = 2 ∧
      (recs2.filter (fun r => decide (r.ifId = some 2))).length = 2 := by
  obtain ⟨recs2, hpr, -, -, h4⟩ := c5_generate_prune_roundtrip wdb5 [⟨0, 30⟩] [⟨0, 126⟩]
    wst5 (by decide) (by decide) (by decide) genRun_wdb5
  exact ⟨recs2, hpr, (h4 1 (by decide)).2.1, (h4 2 (by decide)).2.1⟩
